import Mathlib

/-!
Shallow embedding of the `ensure-immutable-actions` GitHub Action
(source: `src/index.js`), covering the reference parser, the
exempt-owner classifier, the full-SHA check, the release-immutability
resolver and the aggregation engine (`checkAllActions`), together with
proofs about the specification claims.

The remote release-lookup collaborator (`octokit.rest.repos.getReleaseByTag`)
is modelled as an oracle.  Because the real collaborator is a stateful
object, the oracle is indexed by the number of calls issued so far
(`Nat`); a "deterministic / constant-result" collaborator is one whose
behaviour does not depend on that index.  Each function additionally
returns the list of lookup calls it performed, so that "the resolver is
invoked at most once" style properties can be stated.
-/

namespace EnsureImmutable

/-- JavaScript value reaching `parseActionReference` through a step's
`uses` field: the function guards `!uses || typeof uses !== 'string'`. -/
inductive JSVal where
  | nullV : JSVal
  | undefinedV : JSVal
  | str : String → JSVal
  | num : Int → JSVal
  | boolV : Bool → JSVal
  deriving DecidableEq, Repr

/-- Result of `parseActionReference`: `{ owner, repo, ref }`. -/
structure ParsedAction where
  owner : String
  repo : String
  ref : String
  deriving DecidableEq, Repr

/-- `uses.startsWith('./')` (src/index.js line 66). -/
def startsWithDotSlash : List Char → Bool
  | '.' :: '/' :: _ => true
  | _ => false

/-- `uses.includes('://')` (src/index.js line 71). -/
def containsProtocolSep : List Char → Bool
  | ':' :: '/' :: '/' :: _ => true
  | _ :: rest => containsProtocolSep rest
  | [] => false

/-- A JavaScript LineTerminator (ECMA-262): `\n`, `\r`, U+2028 or
U+2029.  The `.` atom of a regex without the `s` flag matches any
character except these. -/
def isLineTerminator (c : Char) : Bool :=
  c == '\n' || c == '\r' || c == '\u2028' || c == '\u2029'

/-- Character-level core of the regex
`^([^/]+)\/([^/@]+)(?:\/[^@]*)?@(.+)$` (src/index.js line 76).
Group 1 (`owner`) is the maximal run of non-`/` characters, so it is
everything before the first `/`; group 2 (`repo`) is the maximal run of
characters in neither `/` nor `@` after that `/`; the optional group
consumes a `/`-initiated subpath free of `@`; the final `@` of the
pattern is therefore the first `@` after the first `/`, and group 3
(`ref`) is everything after it — required non-empty and, because `.`
does not match a LineTerminator and `$` (no `m` flag) anchors only at
the true end of input, free of line terminators.  The negated classes
`[^/]`, `[^/@]` and `[^@]` do match line terminators. -/
def parseCore (cs : List Char) : Option ParsedAction :=
  let owner := cs.takeWhile (fun c => !(c == '/'))
  let slashRest := cs.dropWhile (fun c => !(c == '/'))
  if slashRest = [] then none
  else if owner = [] then none
  else
    let rest := slashRest.tail
    let repo := rest.takeWhile (fun c => !(c == '/') && !(c == '@'))
    let rest2 := rest.dropWhile (fun c => !(c == '/') && !(c == '@'))
    if repo = [] then none
    else
      let afterAt := rest2.dropWhile (fun c => !(c == '@'))
      if afterAt = [] then none
      else
        let refCs := afterAt.tail
        if refCs = [] then none
        else if refCs.any isLineTerminator then none
        else some ⟨⟨owner⟩, ⟨repo⟩, ⟨refCs⟩⟩

/-- `parseActionReference` (src/index.js lines 60-83) on an arbitrary
JavaScript value: `null` unless `uses` is a non-empty string that is not
a local action (`./…`), not a container reference (`…://…`), and matches
the regex. -/
def parseActionReferenceJS (uses : JSVal) : Option ParsedAction :=
  match uses with
  | .str s =>
    if s.data = [] then none
    else if startsWithDotSlash s.data then none
    else if containsProtocolSep s.data then none
    else parseCore s.data
  | _ => none

/-- `parseActionReference` specialised to string inputs. -/
def parseActionReference (uses : String) : Option ParsedAction :=
  parseActionReferenceJS (.str uses)

/-- `shouldExcludeAction` (src/index.js lines 90-92): the fixed trusted
owner set. -/
def shouldExcludeAction (owner : String) : Bool :=
  owner == "actions" || owner == "github" || owner == "octokit"

/-- One character of the class `[a-f0-9]` under the `i` flag. -/
def isHexCharCI (c : Char) : Bool :=
  ('a' ≤ c && c ≤ 'f') || ('A' ≤ c && c ≤ 'F') || ('0' ≤ c && c ≤ '9')

/-- `isFullSHA` (src/index.js lines 194-196): `/^[a-f0-9]{40}$/i.test(ref)`. -/
def isFullSHA (ref : String) : Bool :=
  ref.length == 40 && ref.data.all isHexCharCI

/-- Normalised result triple `{ immutable, releaseFound, message }`. -/
structure CheckResult where
  immutable : Bool
  releaseFound : Bool
  message : String
  deriving DecidableEq, Repr

/-- Behaviour of one `getReleaseByTag` call: a release record whose
`immutable` property may be absent (`release (some b)` / `release none`),
a rejection with `status === 404`, or any other rejection carrying its
`message`. -/
inductive ApiResult where
  | release : Option Bool → ApiResult
  | notFoundError : ApiResult
  | otherError : String → ApiResult
  deriving DecidableEq, Repr

/-- One `getReleaseByTag` collaborator call, as `(owner, repo, tag)`. -/
structure ApiCall where
  owner : String
  repo : String
  ref : String
  deriving DecidableEq, Repr

/-- `checkReleaseImmutability` (src/index.js lines 228-276).  The second
component is the list of collaborator calls performed (empty or a
singleton).  The function is total: every path yields a populated
triple, mirroring the source's never-throws guarantee. -/
def checkReleaseImmutability (api : String → String → String → ApiResult)
    (owner repo ref : String) : CheckResult × List ApiCall :=
  if isFullSHA ref then
    (⟨true, false, "Immutable (full SHA reference)"⟩, [])
  else
    match api owner repo ref with
    | .release imm =>
      let isImmutable := imm == some true
      (⟨isImmutable, true, if isImmutable then "Immutable release" else "Mutable release"⟩,
        [⟨owner, repo, ref⟩])
    | .notFoundError =>
      (⟨false, false, "No release found for this reference"⟩, [⟨owner, repo, ref⟩])
    | .otherError msg =>
      (⟨false, false, "API error: " ++ msg⟩, [⟨owner, repo, ref⟩])

/-- One element of the `actions` array handed to `checkAllActions`,
as built by `extractActionsFromWorkflow` (src/index.js lines 108-125):
`{ uses, owner, repo, ref, workflowFile, jobName, stepName, isFirstParty }`. -/
structure ActionInput where
  uses : String
  owner : String
  repo : String
  ref : String
  workflowFile : String
  jobName : String
  stepName : String
  isFirstParty : Bool
  deriving DecidableEq, Repr

/-- Entry of the flat `mutable` / `immutable` / `firstParty` result lists
(src/index.js lines 300-309 and 329-336). -/
structure ActionInfo where
  uses : String
  owner : String
  repo : String
  ref : String
  isFirstParty : Bool
  immutable : Bool
  releaseFound : Bool
  message : String
  deriving DecidableEq, Repr

/-- Entry of a per-workflow result list (src/index.js lines 365-373);
unlike the flat entries it also records `workflowFile`. -/
structure WorkflowActionInfo where
  uses : String
  owner : String
  repo : String
  ref : String
  workflowFile : String
  isFirstParty : Bool
  immutable : Bool
  releaseFound : Bool
  message : String
  deriving DecidableEq, Repr

/-- `byWorkflow[workflowFile] = { mutable: [], immutable: [], firstParty: [] }`. -/
structure WorkflowGroup where
  mutable : List WorkflowActionInfo
  immutable : List WorkflowActionInfo
  firstParty : List WorkflowActionInfo
  deriving DecidableEq, Repr

/-- The value returned by `checkAllActions`
(`{ mutable, immutable, firstParty, byWorkflow }`).  `byWorkflow` is an
association list in first-seen key order, matching iteration order of the
plain-object map for the non-numeric file names the action produces. -/
structure AggregateReport where
  mutable : List ActionInfo
  immutable : List ActionInfo
  firstParty : List ActionInfo
  byWorkflow : List (String × WorkflowGroup)
  deriving DecidableEq, Repr

/-- `Map.prototype.set` on an association list: an existing key keeps its
position and gets the new value, a new key is appended. -/
def upsert {α : Type} : List (String × α) → String → α → List (String × α)
  | [], k, v => [(k, v)]
  | (k', v') :: rest, k, v =>
    if k' = k then (k', v) :: rest else (k', v') :: upsert rest k v

/-- `Map.prototype.get` on an association list. -/
def lookupMap {α : Type} : List (String × α) → String → Option α
  | [], _ => none
  | (k', v) :: rest, k => if k' = k then some v else lookupMap rest k

/-- `new Map(l.map(a => [a.uses, a]))` as an association list (key order =
first occurrence, value = last occurrence). -/
def mapByUses (l : List ActionInput) : List (String × ActionInput) :=
  l.foldl (fun m a => upsert m a.uses a) []

/-- `Array.from(new Map(l.map(a => [a.uses, a])).values())`
(src/index.js lines 298, 321 and 361). -/
def dedupByUses (l : List ActionInput) : List ActionInput :=
  (mapByUses l).map (·.2)

/-- The classification cached for every unique first-party action
(src/index.js lines 313-317). -/
def firstPartyCheckResult : CheckResult :=
  ⟨true, false, "First-party action"⟩

/-- The flat-list entry built for a unique first-party action
(src/index.js lines 300-309). -/
def mkFirstPartyInfo (a : ActionInput) : ActionInfo :=
  ⟨a.uses, a.owner, a.repo, a.ref, true, true, false, "First-party action"⟩

/-- The release-lookup collaborator, indexed by how many lookups were
already issued on it (it is a stateful object in the source). -/
abbrev Collaborator := Nat → String → String → String → ApiResult

/-- One resolver invocation recorded during aggregation: the specifier
it was issued for and the `(owner, repo, ref)` it carried. -/
structure ResolveCall where
  uses : String
  owner : String
  repo : String
  ref : String
  deriving DecidableEq, Repr

/-- State threaded through the third-party loop of `checkAllActions`:
the run-scoped cache, the two flat lists built so far, and the log of
resolver invocations. -/
structure TpState where
  cache : List (String × CheckResult)
  immutableInfos : List ActionInfo
  mutableInfos : List ActionInfo
  callLog : List ResolveCall
  deriving DecidableEq, Repr

/-- The loop over `uniqueActions` (src/index.js lines 323-343): resolve,
cache under the `uses` key, and append the entry to `immutable` or
`mutable` as the outcome's `immutable` flag directs. -/
def tpLoop (api : Collaborator) (startCalls : Nat) :
    List ActionInput → TpState → TpState
  | [], st => st
  | a :: rest, st =>
    let step := checkReleaseImmutability (api (startCalls + st.callLog.length))
      a.owner a.repo a.ref
    let result := step.1
    let newLog := st.callLog ++ step.2.map (fun c => ResolveCall.mk a.uses c.owner c.repo c.ref)
    let cache' := upsert st.cache a.uses result
    let info : ActionInfo :=
      ⟨a.uses, a.owner, a.repo, a.ref, false, result.immutable, result.releaseFound, result.message⟩
    if result.immutable then
      tpLoop api startCalls rest ⟨cache', st.immutableInfos ++ [info], st.mutableInfos, newLog⟩
    else
      tpLoop api startCalls rest ⟨cache', st.immutableInfos, st.mutableInfos ++ [info], newLog⟩

/-- Pushing one action into `actionsByWorkflow` (src/index.js lines 348-354):
append to the existing file bucket, or open a new bucket at the end. -/
def addToGroups : List (String × List ActionInput) → ActionInput → List (String × List ActionInput)
  | [], a => [(a.workflowFile, [a])]
  | (f, g) :: rest, a =>
    if f = a.workflowFile then (f, g ++ [a]) :: rest else (f, g) :: addToGroups rest a

/-- `actionsByWorkflow`: the original (non-deduplicated) input grouped by
`workflowFile`, first-seen file order, input order within each bucket. -/
def groupByFile (l : List ActionInput) : List (String × List ActionInput) :=
  l.foldl addToGroups []

/-- The loop over one workflow's deduplicated actions
(src/index.js lines 363-382).  A cache miss is propagated as `none`:
at that point the source would fault reading `cachedResult.immutable`;
the cache in fact holds every `uses` key, so the branch is unreachable. -/
def groupLoop (cache : List (String × CheckResult)) :
    List ActionInput → WorkflowGroup → Option WorkflowGroup
  | [], g => some g
  | a :: rest, g =>
    match lookupMap cache a.uses with
    | none => none
    | some r =>
      let info : WorkflowActionInfo :=
        ⟨a.uses, a.owner, a.repo, a.ref, a.workflowFile, a.isFirstParty,
          r.immutable, r.releaseFound, r.message⟩
      if a.isFirstParty then
        groupLoop cache rest { g with firstParty := g.firstParty ++ [info] }
      else if r.immutable then
        groupLoop cache rest { g with immutable := g.immutable ++ [info] }
      else
        groupLoop cache rest { g with mutable := g.mutable ++ [info] }

/-- The loop over `actionsByWorkflow` (src/index.js lines 357-383). -/
def buildByWorkflow (cache : List (String × CheckResult)) :
    List (String × List ActionInput) → Option (List (String × WorkflowGroup))
  | [] => some []
  | (wf, wfActions) :: rest =>
    match groupLoop cache (dedupByUses wfActions) ⟨[], [], []⟩, buildByWorkflow cache rest with
    | some g, some r => some ((wf, g) :: r)
    | _, _ => none

/-- `checkAllActions` (src/index.js lines 284-386).  Also returns the
list of resolver invocations performed, in order. -/
def checkAllActions (api : Collaborator) (startCalls : Nat) (actions : List ActionInput) :
    Option AggregateReport × List ResolveCall :=
  let firstPartyActions := actions.filter (fun a => a.isFirstParty)
  let thirdPartyActions := actions.filter (fun a => !a.isFirstParty)
  let uniqueFirstPartyActions := dedupByUses firstPartyActions
  let firstParty := uniqueFirstPartyActions.map mkFirstPartyInfo
  let fpCache := uniqueFirstPartyActions.foldl
    (fun m a => upsert m a.uses firstPartyCheckResult) []
  let uniqueActions := dedupByUses thirdPartyActions
  let st := tpLoop api startCalls uniqueActions ⟨fpCache, [], [], []⟩
  match buildByWorkflow st.cache (groupByFile actions) with
  | some bw => (some ⟨st.mutableInfos, st.immutableInfos, firstParty, bw⟩, st.callLog)
  | none => (none, st.callLog)

/-- The `all-passed` output (src/index.js line 470):
`core.setOutput('all-passed', mutable.length === 0)`. -/
def allPassedOutput (rep : AggregateReport) : Bool :=
  rep.mutable.length == 0

/-- Whether the run is marked failed after aggregation
(src/index.js line 570): `if (failOnMutable && mutable.length > 0)`. -/
def runMarkedFailed (failOnMutable : Bool) (rep : AggregateReport) : Bool :=
  failOnMutable && decide (0 < rep.mutable.length)

/-- An `ActionInput` obeying the spec's data-model invariant: it was
constructed from a successful parse of its own `rawSpecifier`, and its
first-party flag is the exemption check of its owner. -/
def WellFormedAction (a : ActionInput) : Prop :=
  parseActionReference a.uses = some ⟨a.owner, a.repo, a.ref⟩ ∧
    a.isFirstParty = shouldExcludeAction a.owner

/-- Deduplication as the spec words it: keep the first occurrence of
each `uses` key, drop the later ones. -/
def dedupFirstByUses : List ActionInput → List ActionInput
  | [] => []
  | a :: rest => a :: dedupFirstByUses (rest.filter (fun b => !(b.uses == a.uses)))
termination_by l => l.length
decreasing_by
  simp only [List.length_cons]
  exact Nat.lt_succ_of_le (List.length_filter_le _ _)

/-- "Everything after the first `@`" of a specifier, as the claim about
the parser words the ref. -/
def refEverythingAfterFirstAt (uses : String) : String :=
  ⟨(uses.data.dropWhile (fun c => !(c == '@'))).tail⟩

/-- The flat aggregated lists computed as the spec words step 2/3 of the
aggregation: partitions deduplicated keeping the *first* occurrence of
each key.  Returned as `(mutable, immutable, firstParty)`. -/
def flatListsKeepFirst (api : Collaborator) (actions : List ActionInput) :
    List ActionInfo × List ActionInfo × List ActionInfo :=
  let uFP := dedupFirstByUses (actions.filter (fun a => a.isFirstParty))
  let uTP := dedupFirstByUses (actions.filter (fun a => !a.isFirstParty))
  let fpCache := uFP.foldl (fun m a => upsert m a.uses firstPartyCheckResult) []
  let st := tpLoop api 0 uTP ⟨fpCache, [], [], []⟩
  (st.mutableInfos, st.immutableInfos, uFP.map mkFirstPartyInfo)

/-- Two occurrences of the same specifier in different workflow files
(both parse-valid); used to exhibit which occurrence the `Map`-based
deduplication retains. -/
def dupOccurrenceA : ActionInput :=
  ⟨"owner/repo@v1", "owner", "repo", "v1", "a.yml", "build", "first step", false⟩

/-- Second occurrence of the same specifier, from another file. -/
def dupOccurrenceB : ActionInput :=
  ⟨"owner/repo@v1", "owner", "repo", "v1", "b.yml", "deploy", "second step", false⟩

/-- The fields of an action the third-party loop reads. -/
def projKey (a : ActionInput) : String × String × String × String :=
  (a.uses, a.owner, a.repo, a.ref)

/-- The run-scoped cache right after the first-party pass
(src/index.js lines 295-318). -/
def fpCacheOf (acts : List ActionInput) : List (String × CheckResult) :=
  (dedupByUses (acts.filter (fun a => a.isFirstParty))).foldl
    (fun m a => upsert m a.uses firstPartyCheckResult) []

/-- State of `checkAllActions` after the third-party loop. -/
def tpStateOf (api : Collaborator) (s0 : Nat) (acts : List ActionInput) : TpState :=
  tpLoop api s0 (dedupByUses (acts.filter (fun a => !a.isFirstParty)))
    ⟨fpCacheOf acts, [], [], []⟩

/-- A parse-valid first-party reference, for concrete runs. -/
def fpOccurrence : ActionInput :=
  ⟨"actions/checkout@v4", "actions", "checkout", "v4", "ci.yml", "build", "checkout", true⟩

/-- A character of the class the spec describes for trivially immutable
refs: a hexadecimal digit, case-insensitive. -/
def SpecHexChar (c : Char) : Prop :=
  ('0' ≤ c ∧ c ≤ '9') ∨ ('a' ≤ c ∧ c ≤ 'f') ∨ ('A' ≤ c ∧ c ≤ 'F')

instance (c : Char) : Decidable (SpecHexChar c) :=
  inferInstanceAs (Decidable (('0' ≤ c ∧ c ≤ '9') ∨ ('a' ≤ c ∧ c ≤ 'f') ∨ ('A' ≤ c ∧ c ≤ 'F')))

theorem isHexCharCI_iff (c : Char) : isHexCharCI c = true ↔ SpecHexChar c := by
  simp only [isHexCharCI, SpecHexChar, Bool.or_eq_true, Bool.and_eq_true, decide_eq_true_eq]
  tauto

theorem isFullSHA_of_spec {ref : String} (hlen : ref.data.length = 40)
    (hhex : ∀ c ∈ ref.data, SpecHexChar c) : isFullSHA ref = true := by
  simp only [isFullSHA, String.length, Bool.and_eq_true, beq_iff_eq, List.all_eq_true]
  exact ⟨hlen, fun c hc => (isHexCharCI_iff c).mpr (hhex c hc)⟩

/-- C2: for every owner, repo and ref where the ref is a full
40-character hexadecimal string (case-insensitive), the resolver returns
`{immutable: true, releaseFound: false, message: "Immutable (full SHA
reference)"}` and performs no remote lookup (empty call list). -/
theorem full_sha_short_circuits (api : String → String → String → ApiResult)
    (owner repo ref : String) (hlen : ref.data.length = 40)
    (hhex : ∀ c ∈ ref.data, SpecHexChar c) :
    checkReleaseImmutability api owner repo ref
      = (⟨true, false, "Immutable (full SHA reference)"⟩, []) := by
  simp [checkReleaseImmutability, isFullSHA_of_spec hlen hhex]

/-- Witness for C2 at a concrete 40-character SHA: the resolver
short-circuits even though the collaborator would report an error. -/
theorem full_sha_short_circuits_witness :
    checkReleaseImmutability (fun _ _ _ => ApiResult.otherError "boom") "some-owner"
      "some-repo" "1234567890abcdef1234567890abcdef12345678"
      = (⟨true, false, "Immutable (full SHA reference)"⟩, []) :=
  full_sha_short_circuits _ _ _ _ (by decide) (by decide)

/-- C3: the resolver is total (in this embedding it returns one of the
five populated triples on every path — the source's never-throws
guarantee), and on a non-SHA ref it maps a not-found collaborator fault
to the "No release found" triple and any other collaborator fault to the
"API error: " triple carrying the failure detail. -/
theorem resolver_total_and_fault_mapping
    (api : String → String → String → ApiResult) (owner repo ref : String) :
    ((checkReleaseImmutability api owner repo ref).1
        = ⟨true, false, "Immutable (full SHA reference)"⟩ ∨
      (checkReleaseImmutability api owner repo ref).1 = ⟨true, true, "Immutable release"⟩ ∨
      (checkReleaseImmutability api owner repo ref).1 = ⟨false, true, "Mutable release"⟩ ∨
      (checkReleaseImmutability api owner repo ref).1
        = ⟨false, false, "No release found for this reference"⟩ ∨
      ∃ msg, (checkReleaseImmutability api owner repo ref).1
        = ⟨false, false, "API error: " ++ msg⟩) ∧
    (isFullSHA ref = false → api owner repo ref = .notFoundError →
      (checkReleaseImmutability api owner repo ref).1
        = ⟨false, false, "No release found for this reference"⟩) ∧
    (∀ msg, isFullSHA ref = false → api owner repo ref = .otherError msg →
      (checkReleaseImmutability api owner repo ref).1
        = ⟨false, false, "API error: " ++ msg⟩) := by
  refine ⟨?_, ?_, ?_⟩
  · by_cases hsha : isFullSHA ref
    · simp [checkReleaseImmutability, hsha]
    · cases hres : api owner repo ref with
      | release imm =>
        by_cases him : imm = some true
        · simp [checkReleaseImmutability, hsha, hres, him]
        · have : (imm == some true) = false := by
            simpa using him
          simp [checkReleaseImmutability, hsha, hres, this]
      | notFoundError => simp [checkReleaseImmutability, hsha, hres]
      | otherError msg =>
        refine Or.inr (Or.inr (Or.inr (Or.inr ⟨msg, ?_⟩)))
        simp [checkReleaseImmutability, hsha, hres]
  · intro hsha hres
    simp [checkReleaseImmutability, hsha, hres]
  · intro msg hsha hres
    simp [checkReleaseImmutability, hsha, hres]

/-- Witness for C3: a not-found collaborator fault on a tag ref yields
the "No release found" triple. -/
theorem resolver_total_and_fault_mapping_witness :
    (checkReleaseImmutability (fun _ _ _ => ApiResult.notFoundError) "o" "r" "v1").1
      = ⟨false, false, "No release found for this reference"⟩ :=
  (resolver_total_and_fault_mapping (fun _ _ _ => ApiResult.notFoundError) "o" "r" "v1").2.1
    (by decide) rfl

/-- C5: the exempt-owner check accepts exactly the strings "actions",
"github" and "octokit", case-sensitively. -/
theorem exempt_owner_iff (owner : String) :
    shouldExcludeAction owner = true ↔
      owner = "actions" ∨ owner = "github" ∨ owner = "octokit" := by
  simp [shouldExcludeAction, or_assoc]

/-- Witness for C5: "octokit" is exempt, the case variant "Actions" is
not. -/
theorem exempt_owner_iff_witness :
    shouldExcludeAction "octokit" = true ∧ shouldExcludeAction "Actions" = false :=
  ⟨(exempt_owner_iff "octokit").mpr (by decide), by decide⟩

/-- C10: specifier parsing is total at its public interface — on `null`,
`undefined`, the empty string, or any non-string value it returns `null`
(and in this embedding it is a total function, so no caller can observe
an exception). -/
theorem parse_guards_non_strings (v : JSVal)
    (h : v = .nullV ∨ v = .undefinedV ∨ v = .str "" ∨ ∀ s, v ≠ .str s) :
    parseActionReferenceJS v = none := by
  rcases h with h | h | h | h
  · subst h; rfl
  · subst h; rfl
  · subst h; simp [parseActionReferenceJS]
  · cases v with
    | str s => exact absurd rfl (h s)
    | nullV => rfl
    | undefinedV => rfl
    | num n => rfl
    | boolV b => rfl

/-- Witness for C10 at the concrete inputs `null` and `7`. -/
theorem parse_guards_non_strings_witness :
    parseActionReferenceJS JSVal.nullV = none ∧ parseActionReferenceJS (JSVal.num 7) = none :=
  ⟨parse_guards_non_strings _ (Or.inl rfl),
    parse_guards_non_strings _ (Or.inr (Or.inr (Or.inr (by intro s h; cases h))))⟩

theorem dropWhile_head_false {α : Type} (p : α → Bool) :
    ∀ {l : List α} {a : α} {t : List α}, l.dropWhile p = a :: t → p a = false := by
  intro l a t h
  induction l with
  | nil => simp at h
  | cons x xs ih =>
    rw [List.dropWhile_cons] at h
    split at h
    · exact ih h
    · next hx =>
      cases h
      simpa using hx

/-- The regex core returns `{owner := o, repo := r, ref := f}` exactly
when the input decomposes as `o ++ "/" ++ r ++ sub ++ "@" ++ f` with `o`
non-empty and slash-free, `r` non-empty and free of both `/` and `@`,
`sub` empty or a `/`-initiated subpath free of `@`, and `f` non-empty.
The decomposition is unique, so this pins the captured groups down. -/
theorem parseCore_iff (cs o r f : List Char) :
    parseCore cs = some ⟨⟨o⟩, ⟨r⟩, ⟨f⟩⟩ ↔
      ∃ sub : List Char,
        cs = o ++ '/' :: (r ++ (sub ++ '@' :: f)) ∧
        o ≠ [] ∧ (∀ c ∈ o, c ≠ '/') ∧
        r ≠ [] ∧ (∀ c ∈ r, c ≠ '/' ∧ c ≠ '@') ∧
        (sub = [] ∨ ∃ p, sub = '/' :: p ∧ ∀ c ∈ p, c ≠ '@') ∧
        f ≠ [] ∧ (∀ c ∈ f, isLineTerminator c = false) := by
  constructor
  · intro h
    simp only [parseCore] at h
    split at h
    · exact absurd h (by simp)
    next h1 =>
    split at h
    · exact absurd h (by simp)
    next h2 =>
    split at h
    · exact absurd h (by simp)
    next h3 =>
    split at h
    · exact absurd h (by simp)
    next h4 =>
    split at h
    · exact absurd h (by simp)
    next h5 =>
    split at h
    · exact absurd h (by simp)
    next h6 =>
    have hinj := Option.some.inj h
    have ho : cs.takeWhile (fun c => !(c == '/')) = o :=
      congrArg (fun x => x.owner.data) hinj
    have hr : (cs.dropWhile (fun c => !(c == '/'))).tail.takeWhile
        (fun c => !(c == '/') && !(c == '@')) = r :=
      congrArg (fun x => x.repo.data) hinj
    have hf : (((cs.dropWhile (fun c => !(c == '/'))).tail.dropWhile
        (fun c => !(c == '/') && !(c == '@'))).dropWhile (fun c => !(c == '@'))).tail = f :=
      congrArg (fun x => x.ref.data) hinj
    cases hdrop : cs.dropWhile (fun c => !(c == '/')) with
    | nil => exact absurd hdrop h1
    | cons slash rest =>
      rw [hdrop] at hr hf h3 h4 h5 h6
      simp only [List.tail_cons] at hr hf h3 h4 h5 h6
      have hslash : slash = '/' := by simpa using dropWhile_head_false _ hdrop
      cases hat : (rest.dropWhile (fun c => !(c == '/') && !(c == '@'))).dropWhile
          (fun c => !(c == '@')) with
      | nil => exact absurd hat h4
      | cons at0 refCs =>
        rw [hat] at hf h5 h6
        simp only [List.tail_cons] at hf h5 h6
        have hat0 : at0 = '@' := by simpa using dropWhile_head_false _ hat
        refine ⟨(rest.dropWhile (fun c => !(c == '/') && !(c == '@'))).takeWhile
          (fun c => !(c == '@')), ?_, ?_, ?_, ?_, ?_, ?_, ?_, ?_⟩
        · conv_lhs => rw [← List.takeWhile_append_dropWhile (fun c => !(c == '/')) cs]
          rw [ho, hdrop, hslash]
          congr 1
          congr 1
          conv_lhs => rw [← List.takeWhile_append_dropWhile
            (fun c => !(c == '/') && !(c == '@')) rest]
          rw [hr]
          congr 1
          conv_lhs => rw [← List.takeWhile_append_dropWhile (fun c => !(c == '@'))
            (rest.dropWhile (fun c => !(c == '/') && !(c == '@')))]
          rw [hat, hat0, hf]
        · rw [← ho]; exact h2
        · intro c hc
          rw [← ho] at hc
          simpa using List.mem_takeWhile_imp hc
        · rw [← hr]; exact h3
        · intro c hc
          rw [← hr] at hc
          have := List.mem_takeWhile_imp hc
          simp only [Bool.and_eq_true, Bool.not_eq_true', beq_eq_false_iff_ne] at this
          exact this
        · cases hrest2 : rest.dropWhile (fun c => !(c == '/') && !(c == '@')) with
          | nil =>
            rw [hrest2] at hat
            simp at hat
          | cons c0 t =>
            have hc0 := dropWhile_head_false (fun c => !(c == '/') && !(c == '@')) hrest2
            by_cases hcc : c0 = '@'
            · left
              rw [hcc, List.takeWhile_cons_of_neg (by simp)]
            · have hcslash : c0 = '/' := by
                rcases Bool.and_eq_false_iff.mp hc0 with h' | h'
                · simpa using h'
                · exfalso; apply hcc; simpa using h'
              right
              refine ⟨t.takeWhile (fun c => !(c == '@')), ?_, ?_⟩
              · rw [hcslash, List.takeWhile_cons_of_pos (by simp)]
              · intro c hcmem
                simpa using List.mem_takeWhile_imp hcmem
        · rw [← hf]; exact h5
        · intro c hc
          rw [← hf] at hc
          have h6' : refCs.any isLineTerminator = false := by
            simpa using h6
          have := List.any_eq_false.mp h6' c hc
          simpa using this
  · rintro ⟨sub, hcs, ho, hoAll, hr, hrAll, hsub, hf, hfLT⟩
    have hq1o : ∀ a ∈ o, (!(a == '/')) = true := by
      intro a ha; simpa using hoAll a ha
    have hq2r : ∀ a ∈ r, (!(a == '/') && !(a == '@')) = true := by
      intro a ha
      have := hrAll a ha
      simp only [Bool.and_eq_true, Bool.not_eq_true', beq_eq_false_iff_ne]
      exact this
    have hq3sub : ∀ a ∈ sub, (!(a == '@')) = true := by
      rcases hsub with rfl | ⟨p, rfl, hp⟩
      · simp
      · intro a ha
        rcases List.mem_cons.mp ha with rfl | ha
        · simp
        · simpa using hp a ha
    obtain ⟨c0, cs0, hsf, hq2c0⟩ :
        ∃ c0 cs0, sub ++ '@' :: f = c0 :: cs0 ∧ (!(c0 == '/') && !(c0 == '@')) = false := by
      rcases hsub with rfl | ⟨p, rfl, hp⟩
      · exact ⟨'@', f, rfl, by simp⟩
      · exact ⟨'/', p ++ '@' :: f, by simp, by simp⟩
    subst hcs
    simp only [parseCore]
    rw [List.takeWhile_append_of_pos hq1o, List.takeWhile_cons_of_neg (by simp),
      List.append_nil,
      List.dropWhile_append_of_pos hq1o, List.dropWhile_cons_of_neg (by simp)]
    rw [if_neg (by simp), if_neg ho]
    simp only [List.tail_cons]
    rw [List.takeWhile_append_of_pos hq2r, List.dropWhile_append_of_pos hq2r, hsf,
      List.takeWhile_cons_of_neg (by simp [hq2c0]), List.append_nil,
      List.dropWhile_cons_of_neg (by simp [hq2c0]), ← hsf]
    rw [if_neg hr]
    rw [List.dropWhile_append_of_pos hq3sub, List.dropWhile_cons_of_neg (by simp)]
    rw [if_neg (by simp)]
    simp only [List.tail_cons]
    rw [if_neg hf]
    have hanyf : f.any isLineTerminator = false :=
      List.any_eq_false.mpr (fun c hc => by simp [hfLT c hc])
    rw [if_neg (by simp [hanyf])]

/-- C4 counterexample: on `"a@b/repo@v1"` parsing succeeds with owner
`"a@b"`, repo `"repo"` and ref `"v1"`, yet everything after the first
`@` of the string is `"b/repo@v1"`.  The claim's clauses "the ref is
everything after the first `@`" (and "owner and repo are the first two
`/`-delimited segments") fail when an `@` occurs before the first `/`:
the regex's owner group `[^/]+` admits `@`. -/
theorem parse_ref_after_first_at_counterexample :
    parseActionReference "a@b/repo@v1" = some ⟨"a@b", "repo", "v1"⟩ ∧
    refEverythingAfterFirstAt "a@b/repo@v1" = "b/repo@v1" ∧
    ("v1" : String) ≠ "b/repo@v1" :=
  ⟨by decide, by decide, by decide⟩

/-- C4 (amended): parsing returns a reference exactly when the string
does not start with `./`, does not contain `://`, and decomposes as
`owner ++ "/" ++ repo ++ subpath ++ "@" ++ ref` where the owner is
everything before the first `/` (non-empty, and it may contain `@`),
the repo is the maximal non-empty run after the first `/` containing
neither `/` nor `@`, the subpath is empty or `/`-initiated and free of
`@` (it is discarded), and the ref — everything after the first `@`
that follows the first `/` — is non-empty and free of JavaScript line
terminators (the regex dot excludes `\n`, `\r`, U+2028 and U+2029, and
the `$` anchor only matches at the true end of input). -/
theorem parse_action_reference_characterization (uses : String) (o r f : String) :
    parseActionReference uses = some ⟨o, r, f⟩ ↔
      startsWithDotSlash uses.data = false ∧
      containsProtocolSep uses.data = false ∧
      ∃ sub : List Char,
        uses.data = o.data ++ '/' :: (r.data ++ (sub ++ '@' :: f.data)) ∧
        o.data ≠ [] ∧ (∀ c ∈ o.data, c ≠ '/') ∧
        r.data ≠ [] ∧ (∀ c ∈ r.data, c ≠ '/' ∧ c ≠ '@') ∧
        (sub = [] ∨ ∃ p, sub = '/' :: p ∧ ∀ c ∈ p, c ≠ '@') ∧
        f.data ≠ [] ∧ (∀ c ∈ f.data, isLineTerminator c = false) := by
  constructor
  · intro h
    simp only [parseActionReference, parseActionReferenceJS] at h
    split at h
    · exact absurd h (by simp)
    next hempty =>
    split at h
    · exact absurd h (by simp)
    next hdot =>
    split at h
    · exact absurd h (by simp)
    next hproto =>
    have hcore : parseCore uses.data = some ⟨⟨o.data⟩, ⟨r.data⟩, ⟨f.data⟩⟩ := h
    obtain ⟨sub, hrest⟩ := (parseCore_iff uses.data o.data r.data f.data).mp hcore
    exact ⟨Bool.not_eq_true _ ▸ (by simpa using hdot), by simpa using hproto, sub, hrest⟩
  · rintro ⟨hdot, hproto, sub, hcs, hrest⟩
    have hcore := (parseCore_iff uses.data o.data r.data f.data).mpr ⟨sub, hcs, hrest⟩
    simp only [parseActionReference, parseActionReferenceJS]
    rw [if_neg (by rw [hcs]; simp), if_neg (by simp [hdot]), if_neg (by simp [hproto])]
    exact hcore

/-- Witness for C4 (amended) at a concrete subpath specifier. -/
theorem parse_action_reference_characterization_witness :
    parseActionReference "owner/repo/path@v1" = some ⟨"owner", "repo", "v1"⟩ :=
  (parse_action_reference_characterization "owner/repo/path@v1" "owner" "repo" "v1").mpr
    ⟨by decide, by decide, ['/', 'p', 'a', 't', 'h'], by decide, by decide, by decide,
      by decide, by decide, Or.inr ⟨['p', 'a', 't', 'h'], rfl, by decide⟩, by decide,
      by decide⟩

end EnsureImmutable

namespace EnsureImmutable

theorem list_length_ind {α : Type} {P : List α → Prop}
    (ind : ∀ l : List α, (∀ l' : List α, l'.length < l.length → P l') → P l) :
    ∀ l : List α, P l := by
  have key : ∀ (n : Nat) (l : List α), l.length ≤ n → P l := by
    intro n
    induction n with
    | zero =>
      intro l hl
      apply ind
      intro l' hl'
      omega
    | succ n ih =>
      intro l hl
      apply ind
      intro l' hl'
      exact ih l' (by omega)
  intro l
  exact key l.length l le_rfl

theorem getLastD_cons_getD {α : Type} (a v : α) (l : List α) :
    (a :: l).getLast?.getD v = l.getLast?.getD a := by
  cases h : l.getLast? with
  | none => simp [List.getLast?_cons, List.getLastD_eq_getLast?, h]
  | some b => simp [List.getLast?_cons, List.getLastD_eq_getLast?, h]

theorem getLastD_mem_or {α : Type} (l : List α) (v : α) :
    l.getLast?.getD v = v ∨ l.getLast?.getD v ∈ l := by
  induction l generalizing v with
  | nil => simp
  | cons a t ih =>
    rw [getLastD_cons_getD]
    rcases ih a with h | h
    · right; rw [h]; exact List.mem_cons_self a t
    · right; exact List.mem_cons_of_mem a h

theorem lookupMap_upsert {α : Type} (m : List (String × α)) (k : String) (v : α) (k' : String) :
    lookupMap (upsert m k v) k' = if k' = k then some v else lookupMap m k' := by
  induction m with
  | nil =>
    simp only [upsert, lookupMap]
    by_cases h : k = k'
    · rw [if_pos h, if_pos h.symm]
    · rw [if_neg h, if_neg (fun hh => h hh.symm)]
  | cons kv rest ih =>
    obtain ⟨k0, v0⟩ := kv
    by_cases h0 : k0 = k
    · subst h0
      by_cases h1 : k0 = k'
      · subst h1
        simp [upsert, lookupMap]
      · have h1' : ¬(k' = k0) := fun hh => h1 hh.symm
        simp [upsert, lookupMap, h1, h1']
    · by_cases h1 : k0 = k'
      · subst h1
        simp [upsert, lookupMap, h0]
      · simp [upsert, lookupMap, h0, h1, ih]

theorem foldl_upsert_split (xs : List ActionInput) (m : List (String × ActionInput))
    (k : String) (v : ActionInput) :
    xs.foldl (fun m a => upsert m a.uses a) ((k, v) :: m)
    = (k, ((xs.filter (fun a => a.uses == k)).getLast?.getD v)) ::
      (xs.filter (fun a => !(a.uses == k))).foldl (fun m a => upsert m a.uses a) m := by
  induction xs generalizing m v with
  | nil => simp
  | cons b bs ih =>
    by_cases hb : b.uses = k
    · have hbeq : (b.uses == k) = true := by simp [hb]
      rw [List.foldl_cons,
        show upsert ((k, v) :: m) b.uses b = (k, b) :: m from by
          simp only [upsert]; rw [if_pos hb.symm],
        ih]
      simp [hbeq, getLastD_cons_getD]
    · have hbne : (b.uses == k) = false := by simp [hb]
      rw [List.foldl_cons,
        show upsert ((k, v) :: m) b.uses b = (k, v) :: upsert m b.uses b from by
          simp only [upsert]; rw [if_neg (fun hh => hb hh.symm)],
        ih]
      simp [hbne, List.foldl_cons]

theorem mapByUses_cons (a : ActionInput) (xs : List ActionInput) :
    mapByUses (a :: xs)
    = (a.uses, ((xs.filter (fun b => b.uses == a.uses)).getLast?.getD a)) ::
      mapByUses (xs.filter (fun b => !(b.uses == a.uses))) := by
  simp only [mapByUses, List.foldl_cons]
  rw [show upsert [] a.uses a = [(a.uses, a)] from rfl]
  exact foldl_upsert_split xs [] a.uses a

theorem dedupByUses_cons (a : ActionInput) (xs : List ActionInput) :
    dedupByUses (a :: xs)
    = ((xs.filter (fun b => b.uses == a.uses)).getLast?.getD a) ::
      dedupByUses (xs.filter (fun b => !(b.uses == a.uses))) := by
  simp only [dedupByUses, mapByUses_cons, List.map_cons]

end EnsureImmutable

namespace EnsureImmutable

theorem any_filter_eq {α : Type} (p q : α → Bool) (l : List α) :
    (l.filter p).any q = l.any (fun a => p a && q a) := by
  induction l with
  | nil => rfl
  | cons a t ih =>
    rw [List.filter_cons]
    by_cases h : p a
    · simp [h, ih]
    · have h' : p a = false := by simpa using h
      simp [h', ih]

theorem dedupFirst_subset : ∀ (l : List ActionInput), ∀ b ∈ dedupFirstByUses l, b ∈ l := by
  refine list_length_ind ?_
  intro l ih b hb
  cases l with
  | nil => simp [dedupFirstByUses] at hb
  | cons a rest =>
    simp only [dedupFirstByUses] at hb
    rcases List.mem_cons.mp hb with rfl | hb
    · exact List.mem_cons_self _ _
    · have hlen : (rest.filter (fun b => !(b.uses == a.uses))).length < (a :: rest).length := by
        simp only [List.length_cons]
        exact Nat.lt_succ_of_le (List.length_filter_le _ _)
      have := ih _ hlen b hb
      exact List.mem_cons_of_mem _ (List.mem_filter.mp this).1

theorem dedupFirst_countP (s : String) : ∀ (l : List ActionInput),
    (dedupFirstByUses l).countP (fun b => b.uses == s)
      = if l.any (fun b => b.uses == s) then 1 else 0 := by
  refine list_length_ind ?_
  intro l ih
  cases l with
  | nil => simp [dedupFirstByUses]
  | cons a rest =>
    have hlen : (rest.filter (fun b => !(b.uses == a.uses))).length < (a :: rest).length := by
      simp only [List.length_cons]
      exact Nat.lt_succ_of_le (List.length_filter_le _ _)
    simp only [dedupFirstByUses]
    rw [List.countP_cons, ih _ hlen]
    by_cases ha : a.uses = s
    · have hnone : (rest.filter (fun b => !(b.uses == a.uses))).any
          (fun b => b.uses == s) = false := by
        rw [any_filter_eq]
        apply List.any_eq_false.mpr
        intro b _
        by_cases hb : b.uses = a.uses
        · simp [hb]
        · have : b.uses ≠ s := fun hh => hb (hh.trans ha.symm)
          simp [this]
      rw [hnone]
      simp [ha, List.any_cons]
    · have hsame : (rest.filter (fun b => !(b.uses == a.uses))).any (fun b => b.uses == s)
          = rest.any (fun b => b.uses == s) := by
        rw [any_filter_eq]
        congr 1
        funext b
        by_cases hb : b.uses = s
        · have h1 : b.uses ≠ a.uses := fun hh => ha (by rw [← hh, hb])
          have h2 : ¬(s = a.uses) := fun hh => ha hh.symm
          simp [hb, h1, h2]
        · simp [hb]
      rw [hsame]
      have ha' : (a.uses == s) = false := by simpa using ha
      simp [ha', List.any_cons]

theorem dedup_map_congr {β : Type} (f : ActionInput → β) :
    ∀ (l : List ActionInput), (∀ a ∈ l, ∀ b ∈ l, a.uses = b.uses → f a = f b) →
      (dedupByUses l).map f = (dedupFirstByUses l).map f := by
  refine list_length_ind ?_
  intro l ih hf
  cases l with
  | nil => simp [dedupByUses, mapByUses, dedupFirstByUses]
  | cons a rest =>
    have hlen : (rest.filter (fun b => !(b.uses == a.uses))).length < (a :: rest).length := by
      simp only [List.length_cons]
      exact Nat.lt_succ_of_le (List.length_filter_le _ _)
    rw [dedupByUses_cons]
    simp only [dedupFirstByUses, List.map_cons]
    have hval : f ((rest.filter (fun b => b.uses == a.uses)).getLast?.getD a) = f a := by
      rcases getLastD_mem_or (rest.filter (fun b => b.uses == a.uses)) a with h | h
      · rw [h]
      · have hm := List.mem_filter.mp h
        exact hf _ (List.mem_cons_of_mem _ hm.1) a (List.mem_cons_self _ _) (by simpa using hm.2)
    rw [hval]
    congr 1
    exact ih _ hlen (fun x hx y hy hxy =>
      hf x (List.mem_cons_of_mem _ (List.mem_filter.mp hx).1)
        y (List.mem_cons_of_mem _ (List.mem_filter.mp hy).1) hxy)

theorem dedup_countP (l : List ActionInput) (s : String) :
    (dedupByUses l).countP (fun b => b.uses == s)
      = if l.any (fun b => b.uses == s) then 1 else 0 := by
  have hmap := dedup_map_congr (fun b => b.uses) l (fun a _ b _ h => h)
  have h1 : (dedupByUses l).countP (fun b => b.uses == s)
      = ((dedupByUses l).map (fun b => b.uses)).countP (fun u => u == s) :=
    (List.countP_map (fun u => u == s) (fun b : ActionInput => b.uses) (dedupByUses l)).symm
  have h2 : ((dedupFirstByUses l).map (fun b => b.uses)).countP (fun u => u == s)
      = (dedupFirstByUses l).countP (fun b => b.uses == s) :=
    List.countP_map (fun u => u == s) (fun b : ActionInput => b.uses) (dedupFirstByUses l)
  rw [h1, hmap, h2, dedupFirst_countP]

theorem dedup_subset : ∀ (l : List ActionInput), ∀ b ∈ dedupByUses l, b ∈ l := by
  refine list_length_ind ?_
  intro l ih b hb
  cases l with
  | nil => simp [dedupByUses, mapByUses] at hb
  | cons a rest =>
    have hlen : (rest.filter (fun b => !(b.uses == a.uses))).length < (a :: rest).length := by
      simp only [List.length_cons]
      exact Nat.lt_succ_of_le (List.length_filter_le _ _)
    rw [dedupByUses_cons] at hb
    rcases List.mem_cons.mp hb with rfl | hb
    · rcases getLastD_mem_or (rest.filter (fun b => b.uses == a.uses)) a with h | h
      · rw [h]; exact List.mem_cons_self _ _
      · exact List.mem_cons_of_mem _ (List.mem_filter.mp h).1
    · have := ih _ hlen b hb
      exact List.mem_cons_of_mem _ (List.mem_filter.mp this).1

theorem dedup_exists_key (l : List ActionInput) (s : String)
    (h : l.any (fun b => b.uses == s) = true) : ∃ b ∈ dedupByUses l, b.uses = s := by
  have hc := dedup_countP l s
  rw [if_pos h] at hc
  have hpos : 0 < (dedupByUses l).countP (fun b => b.uses == s) := by omega
  obtain ⟨b, hb, hbs⟩ := List.countP_pos_iff.mp hpos
  exact ⟨b, hb, by simpa using hbs⟩

end EnsureImmutable

namespace EnsureImmutable

theorem checkRelease_calls_length (f : String → String → String → ApiResult)
    (o r t : String) : (checkReleaseImmutability f o r t).2.length ≤ 1 := by
  unfold checkReleaseImmutability
  by_cases h : isFullSHA t
  · simp [h]
  · cases hres : f o r t <;> simp [h, hres]

theorem checkRelease_calls_single (f : String → String → String → ApiResult)
    (o r t : String) : (checkReleaseImmutability f o r t).2 = []
      ∨ (checkReleaseImmutability f o r t).2 = [⟨o, r, t⟩] := by
  unfold checkReleaseImmutability
  by_cases h : isFullSHA t
  · simp [h]
  · cases hres : f o r t <;> simp [h, hres]

theorem tpLoop_count (api : Collaborator) (s0 : Nat) (s : String) :
    ∀ (l : List ActionInput) (st : TpState),
      (tpLoop api s0 l st).mutableInfos.countP (fun e => e.uses == s)
        + (tpLoop api s0 l st).immutableInfos.countP (fun e => e.uses == s)
      = st.mutableInfos.countP (fun e => e.uses == s)
        + st.immutableInfos.countP (fun e => e.uses == s)
        + l.countP (fun a => a.uses == s) := by
  intro l
  induction l with
  | nil => intro st; simp [tpLoop]
  | cons a rest ih =>
    intro st
    simp only [tpLoop]
    split
    · rw [ih]
      rw [List.countP_cons, List.countP_append, List.countP_cons, List.countP_nil]
      cases hcase : (a.uses == s) <;> simp [hcase] <;> omega
    · rw [ih]
      rw [List.countP_cons, List.countP_append, List.countP_cons, List.countP_nil]
      cases hcase : (a.uses == s) <;> simp [hcase] <;> omega

theorem tpLoop_log_count (api : Collaborator) (s0 : Nat) (s : String) :
    ∀ (l : List ActionInput) (st : TpState),
      (tpLoop api s0 l st).callLog.countP (fun c => c.uses == s)
        ≤ st.callLog.countP (fun c => c.uses == s) + l.countP (fun a => a.uses == s) := by
  intro l
  induction l with
  | nil => intro st; simp [tpLoop]
  | cons a rest ih =>
    intro st
    have hmapcount : ∀ calls : List ApiCall,
        ((calls.map (fun c => ResolveCall.mk a.uses c.owner c.repo c.ref)).countP
          (fun c => c.uses == s)) ≤ if (a.uses == s) = true then calls.length else 0 := by
      intro calls
      by_cases ha : (a.uses == s) = true
      · rw [if_pos ha]
        calc _ ≤ (calls.map (fun c => ResolveCall.mk a.uses c.owner c.repo c.ref)).length :=
              List.countP_le_length _
          _ = calls.length := List.length_map _ _
      · rw [if_neg ha]
        have : ∀ e ∈ calls.map (fun c => ResolveCall.mk a.uses c.owner c.repo c.ref),
            ¬((fun c : ResolveCall => c.uses == s) e = true) := by
          intro e he
          obtain ⟨c, _, rfl⟩ := List.mem_map.mp he
          simpa using ha
        rw [List.countP_eq_zero.mpr this]
    simp only [tpLoop]
    split
    · refine le_trans (ih _) ?_
      simp only [List.countP_append, List.countP_cons]
      have h1 := hmapcount (checkReleaseImmutability (api (s0 + st.callLog.length))
        a.owner a.repo a.ref).2
      have h2 := checkRelease_calls_length (api (s0 + st.callLog.length)) a.owner a.repo a.ref
      cases hcase : (a.uses == s) <;> simp [hcase] at h1 ⊢ <;> omega
    · refine le_trans (ih _) ?_
      simp only [List.countP_append, List.countP_cons]
      have h1 := hmapcount (checkReleaseImmutability (api (s0 + st.callLog.length))
        a.owner a.repo a.ref).2
      have h2 := checkRelease_calls_length (api (s0 + st.callLog.length)) a.owner a.repo a.ref
      cases hcase : (a.uses == s) <;> simp [hcase] at h1 ⊢ <;> omega

theorem tpLoop_cache_not_mem (api : Collaborator) (s0 : Nat) :
    ∀ (l : List ActionInput) (st : TpState) (k : String), (∀ a ∈ l, a.uses ≠ k) →
      lookupMap (tpLoop api s0 l st).cache k = lookupMap st.cache k := by
  intro l
  induction l with
  | nil => intro st k _; rfl
  | cons a rest ih =>
    intro st k hk
    simp only [tpLoop]
    have hne : ¬(k = a.uses) := fun hh => hk a (List.mem_cons_self _ _) hh.symm
    split
    · rw [ih _ _ (fun b hb => hk b (List.mem_cons_of_mem _ hb))]
      simp only [lookupMap_upsert, if_neg hne]
    · rw [ih _ _ (fun b hb => hk b (List.mem_cons_of_mem _ hb))]
      simp only [lookupMap_upsert, if_neg hne]

theorem tpLoop_mut_mono (api : Collaborator) (s0 : Nat) :
    ∀ (l : List ActionInput) (st : TpState), ∀ e ∈ st.mutableInfos,
      e ∈ (tpLoop api s0 l st).mutableInfos := by
  intro l
  induction l with
  | nil => intro st e he; exact he
  | cons a rest ih =>
    intro st e he
    simp only [tpLoop]
    split
    · exact ih _ e he
    · exact ih _ e (List.mem_append_left _ he)

theorem tpLoop_infos_from (api : Collaborator) (s0 : Nat) :
    ∀ (l : List ActionInput) (st : TpState),
      (∀ e ∈ (tpLoop api s0 l st).mutableInfos,
        e ∈ st.mutableInfos ∨ ∃ a ∈ l, e.uses = a.uses) ∧
      (∀ e ∈ (tpLoop api s0 l st).immutableInfos,
        e ∈ st.immutableInfos ∨ ∃ a ∈ l, e.uses = a.uses) := by
  intro l
  induction l with
  | nil => intro st; exact ⟨fun e he => Or.inl he, fun e he => Or.inl he⟩
  | cons a rest ih =>
    intro st
    simp only [tpLoop]
    split
    · constructor
      · intro e he
        rcases (ih _).1 e he with h | ⟨b, hb, hbe⟩
        · exact Or.inl h
        · exact Or.inr ⟨b, List.mem_cons_of_mem _ hb, hbe⟩
      · intro e he
        rcases (ih _).2 e he with h | ⟨b, hb, hbe⟩
        · rcases List.mem_append.mp h with h | h
          · exact Or.inl h
          · rcases List.mem_singleton.mp h with rfl
            exact Or.inr ⟨a, List.mem_cons_self _ _, rfl⟩
        · exact Or.inr ⟨b, List.mem_cons_of_mem _ hb, hbe⟩
    · constructor
      · intro e he
        rcases (ih _).1 e he with h | ⟨b, hb, hbe⟩
        · rcases List.mem_append.mp h with h | h
          · exact Or.inl h
          · rcases List.mem_singleton.mp h with rfl
            exact Or.inr ⟨a, List.mem_cons_self _ _, rfl⟩
        · exact Or.inr ⟨b, List.mem_cons_of_mem _ hb, hbe⟩
      · intro e he
        rcases (ih _).2 e he with h | ⟨b, hb, hbe⟩
        · exact Or.inl h
        · exact Or.inr ⟨b, List.mem_cons_of_mem _ hb, hbe⟩

theorem tpLoop_log_from (api : Collaborator) (s0 : Nat) :
    ∀ (l : List ActionInput) (st : TpState), ∀ c ∈ (tpLoop api s0 l st).callLog,
      c ∈ st.callLog ∨ ∃ a ∈ l, c.uses = a.uses := by
  intro l
  induction l with
  | nil => intro st c hc; exact Or.inl hc
  | cons a rest ih =>
    intro st c hc
    simp only [tpLoop] at hc
    have hstep : ∀ st' : TpState,
        st'.callLog = st.callLog ++ ((checkReleaseImmutability (api (s0 + st.callLog.length))
          a.owner a.repo a.ref).2.map (fun c => ResolveCall.mk a.uses c.owner c.repo c.ref)) →
        c ∈ (tpLoop api s0 rest st').callLog →
        c ∈ st.callLog ∨ ∃ b ∈ a :: rest, c.uses = b.uses := by
      intro st' hlog hc
      rcases ih st' c hc with h | ⟨b, hb, hbe⟩
      · rw [hlog] at h
        rcases List.mem_append.mp h with h | h
        · exact Or.inl h
        · obtain ⟨c0, _, rfl⟩ := List.mem_map.mp h
          exact Or.inr ⟨a, List.mem_cons_self _ _, rfl⟩
      · exact Or.inr ⟨b, List.mem_cons_of_mem _ hb, hbe⟩
    split at hc
    · exact hstep _ rfl hc
    · exact hstep _ rfl hc

theorem tpLoop_error_in_mut (api : Collaborator) (s0 : Nat) :
    ∀ (l : List ActionInput) (st : TpState) (b : ActionInput), b ∈ l →
      isFullSHA b.ref = false →
      (∀ i, ∃ msg, api i b.owner b.repo b.ref = ApiResult.otherError msg) →
      ∃ e ∈ (tpLoop api s0 l st).mutableInfos, e.uses = b.uses := by
  intro l
  induction l with
  | nil => intro st b hb; exact absurd hb (List.not_mem_nil b)
  | cons a rest ih =>
    intro st b hb hsha herr
    rcases List.mem_cons.mp hb with rfl | hb
    · obtain ⟨msg, hmsg⟩ := herr (s0 + st.callLog.length)
      have hres : (checkReleaseImmutability (api (s0 + st.callLog.length))
          b.owner b.repo b.ref).1.immutable = false := by
        simp [checkReleaseImmutability, hsha, hmsg]
      simp only [tpLoop]
      split
      · next hcond => exact absurd hcond (by simp [hres])
      · refine ⟨⟨b.uses, b.owner, b.repo, b.ref, false,
          (checkReleaseImmutability (api (s0 + st.callLog.length)) b.owner b.repo b.ref).1.immutable,
          (checkReleaseImmutability (api (s0 + st.callLog.length)) b.owner b.repo b.ref).1.releaseFound,
          (checkReleaseImmutability (api (s0 + st.callLog.length)) b.owner b.repo b.ref).1.message⟩,
          ?_, rfl⟩
        apply tpLoop_mut_mono
        exact List.mem_append_right _ (List.mem_singleton.mpr rfl)
    · simp only [tpLoop]
      split
      · exact ih _ b hb hsha herr
      · exact ih _ b hb hsha herr

end EnsureImmutable

namespace EnsureImmutable

theorem tpLoop_congr (api : Collaborator) (s0 : Nat) :
    ∀ (l1 l2 : List ActionInput) (st : TpState), l1.map projKey = l2.map projKey →
      tpLoop api s0 l1 st = tpLoop api s0 l2 st := by
  intro l1
  induction l1 with
  | nil =>
    intro l2 st h
    cases l2 with
    | nil => rfl
    | cons b t => simp at h
  | cons a t1 ih =>
    intro l2 st h
    cases l2 with
    | nil => simp at h
    | cons b t2 =>
      simp only [List.map_cons, List.cons.injEq] at h
      obtain ⟨hab, ht⟩ := h
      have huses : a.uses = b.uses := congrArg (fun x => x.1) hab
      have howner : a.owner = b.owner := congrArg (fun x => x.2.1) hab
      have hrepo : a.repo = b.repo := congrArg (fun x => x.2.2.1) hab
      have href : a.ref = b.ref := congrArg (fun x => x.2.2.2) hab
      simp only [tpLoop, huses, howner, hrepo, href]
      split
      · exact ih t2 _ ht
      · exact ih t2 _ ht

theorem tpLoop_start_irrel (api : Collaborator) (hconst : ∀ i, api i = api 0) :
    ∀ (l : List ActionInput) (st : TpState) (n m : Nat),
      tpLoop api n l st = tpLoop api m l st := by
  intro l
  induction l with
  | nil => intro st n m; rfl
  | cons a rest ih =>
    intro st n m
    simp only [tpLoop]
    rw [show api (n + st.callLog.length) = api (m + st.callLog.length) from
      (hconst (n + st.callLog.length)).trans (hconst (m + st.callLog.length)).symm]
    split
    · exact ih _ n m
    · exact ih _ n m

theorem foldl_upsert_const_congr :
    ∀ (l1 l2 : List ActionInput) (m : List (String × CheckResult)),
      l1.map (fun a => a.uses) = l2.map (fun a => a.uses) →
      l1.foldl (fun m a => upsert m a.uses firstPartyCheckResult) m
        = l2.foldl (fun m a => upsert m a.uses firstPartyCheckResult) m := by
  intro l1
  induction l1 with
  | nil =>
    intro l2 m h
    cases l2 with
    | nil => rfl
    | cons b t => simp at h
  | cons a t1 ih =>
    intro l2 m h
    cases l2 with
    | nil => simp at h
    | cons b t2 =>
      simp only [List.map_cons, List.cons.injEq] at h
      obtain ⟨hab, ht⟩ := h
      simp only [List.foldl_cons, hab]
      exact ih t2 _ ht

theorem lookup_foldl_const :
    ∀ (l : List ActionInput) (m : List (String × CheckResult)) (k : String),
      lookupMap (l.foldl (fun m a => upsert m a.uses firstPartyCheckResult) m) k
        = if l.any (fun a => a.uses == k) then some firstPartyCheckResult else lookupMap m k := by
  intro l
  induction l with
  | nil => intro m k; simp
  | cons a rest ih =>
    intro m k
    simp only [List.foldl_cons]
    rw [ih]
    by_cases h1 : rest.any (fun a => a.uses == k)
    · simp [h1, List.any_cons]
    · have h1' : rest.any (fun a => a.uses == k) = false := by simpa using h1
      rw [if_neg (by simp [h1']), lookupMap_upsert]
      by_cases h2 : a.uses = k
      · rw [if_pos h2.symm, if_pos (by simp [h2, List.any_cons, h1'])]
      · rw [if_neg (fun hh => h2 hh.symm), if_neg (by simp [List.any_cons, h1', h2])]

theorem groupByFile_split (xs : List ActionInput) :
    ∀ (m : List (String × List ActionInput)) (f : String) (g : List ActionInput),
      xs.foldl addToGroups ((f, g) :: m)
      = (f, g ++ xs.filter (fun a => a.workflowFile == f)) ::
        (xs.filter (fun a => !(a.workflowFile == f))).foldl addToGroups m := by
  induction xs with
  | nil => intro m f g; simp
  | cons b bs ih =>
    intro m f g
    simp only [List.foldl_cons, List.filter_cons]
    by_cases hb : b.workflowFile = f
    · rw [show addToGroups ((f, g) :: m) b = (f, g ++ [b]) :: m from by
        simp only [addToGroups]; rw [if_pos hb.symm]]
      rw [ih]
      have hbeq : (b.workflowFile == f) = true := by simp [hb]
      simp [hbeq]
    · rw [show addToGroups ((f, g) :: m) b = (f, g) :: addToGroups m b from by
        simp only [addToGroups]; rw [if_neg (fun hh => hb hh.symm)]]
      rw [ih]
      have hbne : (b.workflowFile == f) = false := by simp [hb]
      simp [hbne, List.foldl_cons]

theorem groupByFile_cons (a : ActionInput) (xs : List ActionInput) :
    groupByFile (a :: xs)
    = (a.workflowFile, a :: xs.filter (fun b => b.workflowFile == a.workflowFile)) ::
      groupByFile (xs.filter (fun b => !(b.workflowFile == a.workflowFile))) := by
  simp only [groupByFile, List.foldl_cons]
  rw [show addToGroups [] a = [(a.workflowFile, [a])] from rfl]
  rw [groupByFile_split]
  rfl

theorem groupByFile_mem :
    ∀ (xs : List ActionInput) (f : String) (l : List ActionInput),
      (f, l) ∈ groupByFile xs →
      l = xs.filter (fun a => a.workflowFile == f) ∧ xs.any (fun a => a.workflowFile == f) := by
  refine list_length_ind ?_
  intro xs ih f l hmem
  cases xs with
  | nil => simp [groupByFile] at hmem
  | cons a rest =>
    have hlen : (rest.filter (fun b => !(b.workflowFile == a.workflowFile))).length
        < (a :: rest).length := by
      simp only [List.length_cons]
      exact Nat.lt_succ_of_le (List.length_filter_le _ _)
    rw [groupByFile_cons] at hmem
    rcases List.mem_cons.mp hmem with heq | hmem
    · have hf : f = a.workflowFile := congrArg Prod.fst heq
      have hl : l = a :: rest.filter (fun b => b.workflowFile == a.workflowFile) :=
        congrArg Prod.snd heq
      subst hf
      constructor
      · rw [hl, List.filter_cons, if_pos (by simp)]
      · simp [List.any_cons]
    · obtain ⟨hl, hany⟩ := ih _ hlen f l hmem
      have hfne : ¬(a.workflowFile = f) := by
        intro hh
        obtain ⟨b, hb, hbf⟩ := List.any_eq_true.mp hany
        have := (List.mem_filter.mp hb).2
        rw [show b.workflowFile = f from by simpa using hbf] at this
        rw [hh] at this
        simp at this
      constructor
      · rw [hl, List.filter_filter]
        rw [List.filter_cons, if_neg (by simp [hfne])]
        apply List.filter_congr
        intro b _
        by_cases hb : b.workflowFile = f
        · have hba : ¬(b.workflowFile = a.workflowFile) := fun hh => hfne (hh.symm.trans hb)
          have hfa : ¬(f = a.workflowFile) := fun hh => hfne hh.symm
          simp [hb, hba, hfa]
        · simp [hb]
      · obtain ⟨b, hb, hbf⟩ := List.any_eq_true.mp hany
        exact List.any_eq_true.mpr ⟨b, List.mem_cons_of_mem _ (List.mem_filter.mp hb).1, hbf⟩

end EnsureImmutable

namespace EnsureImmutable

theorem groupByFile_complete :
    ∀ (xs : List ActionInput), ∀ a ∈ xs, ∃ g, (a.workflowFile, g) ∈ groupByFile xs := by
  refine list_length_ind ?_
  intro xs ih a ha
  cases xs with
  | nil => simp at ha
  | cons b rest =>
    have hlen : (rest.filter (fun c => !(c.workflowFile == b.workflowFile))).length
        < (b :: rest).length := by
      simp only [List.length_cons]
      exact Nat.lt_succ_of_le (List.length_filter_le _ _)
    rw [groupByFile_cons]
    by_cases hw : a.workflowFile = b.workflowFile
    · refine ⟨b :: rest.filter (fun c => c.workflowFile == b.workflowFile), ?_⟩
      rw [hw]
      exact List.mem_cons_self _ _
    · have hmem : a ∈ rest.filter (fun c => !(c.workflowFile == b.workflowFile)) := by
        rcases List.mem_cons.mp ha with rfl | ha
        · exact absurd rfl hw
        · exact List.mem_filter.mpr ⟨ha, by simp [hw]⟩
      obtain ⟨g, hg⟩ := ih _ hlen a hmem
      exact ⟨g, List.mem_cons_of_mem _ hg⟩

theorem groupLoop_count (cache : List (String × CheckResult)) (s : String) :
    ∀ (l : List ActionInput) (g0 g : WorkflowGroup), groupLoop cache l g0 = some g →
      g.mutable.countP (fun e => e.uses == s) + g.immutable.countP (fun e => e.uses == s)
          + g.firstParty.countP (fun e => e.uses == s)
        = g0.mutable.countP (fun e => e.uses == s) + g0.immutable.countP (fun e => e.uses == s)
          + g0.firstParty.countP (fun e => e.uses == s) + l.countP (fun a => a.uses == s) := by
  intro l
  induction l with
  | nil =>
    intro g0 g hrun
    cases Option.some.inj hrun
    simp [groupLoop]
  | cons a rest ih =>
    intro g0 g hrun
    cases hlk : lookupMap cache a.uses with
    | none => simp only [groupLoop, hlk] at hrun; cases hrun
    | some r =>
      simp only [groupLoop, hlk] at hrun
      rw [List.countP_cons]
      split at hrun
      · rw [ih _ _ hrun]
        simp only [List.countP_append, List.countP_cons, List.countP_nil]
        cases hcase : (a.uses == s) <;> simp [hcase] <;> omega
      · split at hrun
        · rw [ih _ _ hrun]
          simp only [List.countP_append, List.countP_cons, List.countP_nil]
          cases hcase : (a.uses == s) <;> simp [hcase] <;> omega
        · rw [ih _ _ hrun]
          simp only [List.countP_append, List.countP_cons, List.countP_nil]
          cases hcase : (a.uses == s) <;> simp [hcase] <;> omega

theorem groupLoop_fp_only (cache : List (String × CheckResult)) (s : String)
    (hcache : lookupMap cache s = some firstPartyCheckResult) :
    ∀ (l : List ActionInput) (g0 g : WorkflowGroup),
      (∀ a ∈ l, a.uses = s → a.isFirstParty = true) →
      groupLoop cache l g0 = some g →
      (∀ e ∈ g.mutable, e.uses = s → e ∈ g0.mutable) ∧
      (∀ e ∈ g.immutable, e.uses = s → e ∈ g0.immutable) ∧
      (∀ e ∈ g.firstParty, e.uses = s → e ∈ g0.firstParty ∨
        (e.immutable = true ∧ e.releaseFound = false ∧ e.message = "First-party action")) := by
  intro l
  induction l with
  | nil =>
    intro g0 g _ hrun
    cases Option.some.inj hrun
    exact ⟨fun e he _ => he, fun e he _ => he, fun e he _ => Or.inl he⟩
  | cons a rest ih =>
    intro g0 g hl hrun
    cases hlk : lookupMap cache a.uses with
    | none => simp only [groupLoop, hlk] at hrun; cases hrun
    | some r =>
      simp only [groupLoop, hlk] at hrun
      split at hrun
      · next hfp =>
        obtain ⟨h1, h2, h3⟩ := ih _ _ (fun b hb => hl b (List.mem_cons_of_mem _ hb)) hrun
        refine ⟨fun e he hes => h1 e he hes, fun e he hes => h2 e he hes, ?_⟩
        intro e he hes
        rcases h3 e he hes with hin | htriple
        · rcases List.mem_append.mp hin with hin | hin
          · exact Or.inl hin
          · rcases List.mem_singleton.mp hin with rfl
            right
            have haus : a.uses = s := hes
            rw [haus] at hlk
            rw [hcache] at hlk
            cases Option.some.inj hlk
            exact ⟨rfl, rfl, rfl⟩
        · exact Or.inr htriple
      · next hfp =>
        have hanot : ¬(a.uses = s) := by
          intro hh
          exact hfp (hl a (List.mem_cons_self _ _) hh)
        split at hrun
        · obtain ⟨h1, h2, h3⟩ := ih _ _ (fun b hb => hl b (List.mem_cons_of_mem _ hb)) hrun
          refine ⟨fun e he hes => h1 e he hes, ?_, fun e he hes => h3 e he hes⟩
          intro e he hes
          have := h2 e he hes
          rcases List.mem_append.mp this with hin | hin
          · exact hin
          · rcases List.mem_singleton.mp hin with rfl
            exact absurd hes hanot
        · obtain ⟨h1, h2, h3⟩ := ih _ _ (fun b hb => hl b (List.mem_cons_of_mem _ hb)) hrun
          refine ⟨?_, fun e he hes => h2 e he hes, fun e he hes => h3 e he hes⟩
          intro e he hes
          have := h1 e he hes
          rcases List.mem_append.mp this with hin | hin
          · exact hin
          · rcases List.mem_singleton.mp hin with rfl
            exact absurd hes hanot

theorem buildByWorkflow_mem (cache : List (String × CheckResult)) :
    ∀ (gs : List (String × List ActionInput)) (bw : List (String × WorkflowGroup)),
      buildByWorkflow cache gs = some bw →
      (bw.map Prod.fst = gs.map Prod.fst) ∧
      ∀ wf g, (wf, g) ∈ bw → ∃ l, (wf, l) ∈ gs ∧
        groupLoop cache (dedupByUses l) ⟨[], [], []⟩ = some g := by
  intro gs
  induction gs with
  | nil =>
    intro bw hrun
    cases Option.some.inj hrun
    exact ⟨rfl, by intro wf g hg; simp at hg⟩
  | cons p rest ih =>
    intro bw hrun
    obtain ⟨wf0, l0⟩ := p
    simp only [buildByWorkflow] at hrun
    cases hg0 : groupLoop cache (dedupByUses l0) ⟨[], [], []⟩ with
    | none => rw [hg0] at hrun; cases hrun
    | some g0 =>
      rw [hg0] at hrun
      cases hr0 : buildByWorkflow cache rest with
      | none => rw [hr0] at hrun; cases hrun
      | some r0 =>
        rw [hr0] at hrun
        cases Option.some.inj hrun
        obtain ⟨hkeys, hmem⟩ := ih r0 hr0
        constructor
        · simp [hkeys]
        · intro wf g hg
          rcases List.mem_cons.mp hg with heq | hg
          · have hwf : wf = wf0 := congrArg Prod.fst heq
            have hgg : g = g0 := congrArg Prod.snd heq
            subst hwf
            subst hgg
            exact ⟨l0, List.mem_cons_self _ _, hg0⟩
          · obtain ⟨l, hl, hgl⟩ := hmem wf g hg
            exact ⟨l, List.mem_cons_of_mem _ hl, hgl⟩

end EnsureImmutable

namespace EnsureImmutable

theorem checkAllActions_parts (api : Collaborator) (s0 : Nat) (acts : List ActionInput)
    (rep : AggregateReport) (log : List ResolveCall)
    (h : checkAllActions api s0 acts = (some rep, log)) :
    buildByWorkflow (tpStateOf api s0 acts).cache (groupByFile acts) = some rep.byWorkflow ∧
    rep.mutable = (tpStateOf api s0 acts).mutableInfos ∧
    rep.immutable = (tpStateOf api s0 acts).immutableInfos ∧
    rep.firstParty = (dedupByUses (acts.filter (fun a => a.isFirstParty))).map mkFirstPartyInfo ∧
    log = (tpStateOf api s0 acts).callLog := by
  simp only [checkAllActions] at h
  split at h
  · next bw heq =>
    have hfst := congrArg Prod.fst h
    have hsnd := congrArg Prod.snd h
    simp only at hfst hsnd
    have hrep := (Option.some.inj hfst).symm
    subst hrep
    exact ⟨heq, rfl, rfl, rfl, hsnd.symm⟩
  · next heq =>
    have hfst := congrArg Prod.fst h
    simp only at hfst
    cases hfst

theorem wf_coherent {acts : List ActionInput} (hWF : ∀ a ∈ acts, WellFormedAction a)
    {a b : ActionInput} (ha : a ∈ acts) (hb : b ∈ acts) (h : a.uses = b.uses) :
    a.owner = b.owner ∧ a.repo = b.repo ∧ a.ref = b.ref ∧ a.isFirstParty = b.isFirstParty := by
  obtain ⟨hpa, hfa⟩ := hWF a ha
  obtain ⟨hpb, hfb⟩ := hWF b hb
  rw [h] at hpa
  rw [hpb] at hpa
  have hinj := Option.some.inj hpa
  have ho : b.owner = a.owner := congrArg ParsedAction.owner hinj
  have hre : b.repo = a.repo := congrArg ParsedAction.repo hinj
  have hrf : b.ref = a.ref := congrArg ParsedAction.ref hinj
  refine ⟨ho.symm, hre.symm, hrf.symm, ?_⟩
  rw [hfa, hfb, ho]

end EnsureImmutable

namespace EnsureImmutable

/-- C9: with a collaborator whose responses do not depend on how many
calls were already issued on it (constant, deterministic results),
aggregation yields the same output no matter how many calls the
collaborator has already served — in particular, re-running it right
after a first run (start index = the first run's call count) returns a
byte-identical report. -/
theorem aggregate_deterministic (api : Collaborator) (acts : List ActionInput)
    (hconst : ∀ i, api i = api 0) (n m : Nat) :
    checkAllActions api n acts = checkAllActions api m acts := by
  simp only [checkAllActions]
  rw [tpLoop_start_irrel api hconst _ _ n m]

/-- Witness for C9: a second run (collaborator already served 2 calls)
equals the first. -/
theorem aggregate_deterministic_witness :
    checkAllActions (fun _ _ _ _ => ApiResult.notFoundError) 2 [dupOccurrenceA, dupOccurrenceB]
      = checkAllActions (fun _ _ _ _ => ApiResult.notFoundError) 0
        [dupOccurrenceA, dupOccurrenceB] :=
  aggregate_deterministic (fun _ _ _ _ => ApiResult.notFoundError)
    [dupOccurrenceA, dupOccurrenceB] (fun _ => rfl) 2 0

/-- C8: `all-passed` is exactly "the mutable list is empty", the run is
marked failed exactly when `fail-on-mutable` holds and the mutable list
is non-empty, and a reference whose lookup keeps faulting (a transient
fault downgrade) lands in the mutable list, failing the run. -/
theorem all_passed_and_failure_policy (api : Collaborator) (acts : List ActionInput)
    (failOnMutable : Bool) (rep : AggregateReport) (log : List ResolveCall)
    (hWF : ∀ a ∈ acts, WellFormedAction a)
    (hrun : checkAllActions api 0 acts = (some rep, log)) :
    (allPassedOutput rep = true ↔ rep.mutable = []) ∧
    (runMarkedFailed failOnMutable rep = true ↔ failOnMutable = true ∧ rep.mutable ≠ []) ∧
    (∀ a ∈ acts, a.isFirstParty = false → isFullSHA a.ref = false →
      (∀ i, ∃ msg, api i a.owner a.repo a.ref = ApiResult.otherError msg) →
      (∃ e ∈ rep.mutable, e.uses = a.uses) ∧ allPassedOutput rep = false ∧
        runMarkedFailed true rep = true) := by
  obtain ⟨hbw, hmut, himm, hfp, hlog⟩ := checkAllActions_parts api 0 acts rep log hrun
  refine ⟨?_, ?_, ?_⟩
  · simp [allPassedOutput, List.length_eq_zero]
  · simp [runMarkedFailed, List.length_pos, and_comm]
  · intro a ha hafp hasha herr
    have haTP : a ∈ acts.filter (fun x => !x.isFirstParty) :=
      List.mem_filter.mpr ⟨ha, by simp [hafp]⟩
    have hany : (acts.filter (fun x => !x.isFirstParty)).any (fun b => b.uses == a.uses) = true :=
      List.any_eq_true.mpr ⟨a, haTP, by simp⟩
    obtain ⟨b, hbdedup, hbuses⟩ := dedup_exists_key _ _ hany
    have hbacts : b ∈ acts := (List.mem_filter.mp (dedup_subset _ b hbdedup)).1
    obtain ⟨hbo, hbr, hbf, _⟩ := wf_coherent hWF hbacts ha hbuses
    have herrb : ∀ i, ∃ msg, api i b.owner b.repo b.ref = ApiResult.otherError msg := by
      rw [hbo, hbr, hbf]
      exact herr
    have hshab : isFullSHA b.ref = false := by rw [hbf]; exact hasha
    obtain ⟨e, he, heu⟩ := tpLoop_error_in_mut api 0 _ _ b hbdedup hshab herrb
    have hemut : e ∈ rep.mutable := by rw [hmut]; exact he
    have hne : rep.mutable ≠ [] := List.ne_nil_of_mem hemut
    refine ⟨⟨e, hemut, heu.trans hbuses⟩, ?_, ?_⟩
    · simp [allPassedOutput, List.length_eq_zero, hne]
    · simp [runMarkedFailed, List.length_pos, hne]

/-- Witness for C8 at a run whose single third-party reference keeps
hitting a collaborator fault: it is reported mutable and the run fails. -/
theorem all_passed_and_failure_policy_witness :
    allPassedOutput ⟨[⟨"owner/repo@v1", "owner", "repo", "v1", false, false, false,
        "API error: rate limited"⟩], [], [],
        [("a.yml", ⟨[⟨"owner/repo@v1", "owner", "repo", "v1", "a.yml", false, false, false,
          "API error: rate limited"⟩], [], []⟩)]⟩ = false ∧
    runMarkedFailed true ⟨[⟨"owner/repo@v1", "owner", "repo", "v1", false, false, false,
        "API error: rate limited"⟩], [], [],
        [("a.yml", ⟨[⟨"owner/repo@v1", "owner", "repo", "v1", "a.yml", false, false, false,
          "API error: rate limited"⟩], [], []⟩)]⟩ = true := by
  have h := all_passed_and_failure_policy (fun _ _ _ _ => ApiResult.otherError "rate limited")
    [dupOccurrenceA] true
    ⟨[⟨"owner/repo@v1", "owner", "repo", "v1", false, false, false,
        "API error: rate limited"⟩], [], [],
        [("a.yml", ⟨[⟨"owner/repo@v1", "owner", "repo", "v1", "a.yml", false, false, false,
          "API error: rate limited"⟩], [], []⟩)]⟩
    [⟨"owner/repo@v1", "owner", "repo", "v1"⟩]
    (by
      intro a ha
      rcases List.mem_singleton.mp ha with rfl
      exact ⟨by decide, by decide⟩)
    (by decide)
  have h3 := h.2.2 dupOccurrenceA (List.mem_singleton.mpr rfl) (by decide) (by decide)
    (fun i => ⟨"rate limited", rfl⟩)
  exact ⟨h3.2.1, h3.2.2⟩

end EnsureImmutable

namespace EnsureImmutable

/-- C7: an exempt-owner reference is reported first-party with
`immutable = true`, `releaseFound = false`, message "First-party
action" in the flat and per-file lists; it never appears in a mutable
or immutable list and no resolver call is issued for it. -/
theorem first_party_invariant (api : Collaborator) (acts : List ActionInput)
    (a : ActionInput) (rep : AggregateReport) (log : List ResolveCall)
    (hWF : ∀ x ∈ acts, WellFormedAction x)
    (ha : a ∈ acts) (hex : shouldExcludeAction a.owner = true)
    (hrun : checkAllActions api 0 acts = (some rep, log)) :
    (∃ e ∈ rep.firstParty, e.uses = a.uses) ∧
    (∀ e ∈ rep.firstParty, e.isFirstParty = true ∧ e.immutable = true ∧
      e.releaseFound = false ∧ e.message = "First-party action") ∧
    (∀ e ∈ rep.mutable, e.uses ≠ a.uses) ∧
    (∀ e ∈ rep.immutable, e.uses ≠ a.uses) ∧
    (∀ wf g, (wf, g) ∈ rep.byWorkflow →
      (∀ e ∈ g.mutable, e.uses ≠ a.uses) ∧ (∀ e ∈ g.immutable, e.uses ≠ a.uses) ∧
      (∀ e ∈ g.firstParty, e.uses = a.uses →
        e.immutable = true ∧ e.releaseFound = false ∧ e.message = "First-party action")) ∧
    (∀ c ∈ log, c.uses ≠ a.uses) := by
  obtain ⟨hbw, hmut, himm, hfp, hlog⟩ := checkAllActions_parts api 0 acts rep log hrun
  have hafp : a.isFirstParty = true := by rw [(hWF a ha).2, hex]
  have hTPnone : ∀ b ∈ acts.filter (fun x => !x.isFirstParty), b.uses ≠ a.uses := by
    intro b hb hbu
    obtain ⟨hbacts, hbflag⟩ := List.mem_filter.mp hb
    obtain ⟨_, _, _, hflag⟩ := wf_coherent hWF hbacts ha hbu
    rw [hafp] at hflag
    rw [hflag] at hbflag
    simp at hbflag
  have hTPdednone : ∀ b ∈ dedupByUses (acts.filter (fun x => !x.isFirstParty)),
      b.uses ≠ a.uses := fun b hb => hTPnone b (dedup_subset _ b hb)
  have haFP : a ∈ acts.filter (fun x => x.isFirstParty) :=
    List.mem_filter.mpr ⟨ha, hafp⟩
  have hanyFP : (acts.filter (fun x => x.isFirstParty)).any (fun b => b.uses == a.uses) = true :=
    List.any_eq_true.mpr ⟨a, haFP, by simp⟩
  obtain ⟨b0, hb0ded, hb0uses⟩ := dedup_exists_key _ _ hanyFP
  have hcache : lookupMap (tpStateOf api 0 acts).cache a.uses = some firstPartyCheckResult := by
    rw [show (tpStateOf api 0 acts).cache
        = (tpLoop api 0 (dedupByUses (acts.filter (fun x => !x.isFirstParty)))
          ⟨fpCacheOf acts, [], [], []⟩).cache from rfl]
    rw [tpLoop_cache_not_mem api 0 _ _ a.uses hTPdednone]
    rw [show (TpState.mk (fpCacheOf acts) [] [] []).cache = fpCacheOf acts from rfl]
    rw [show fpCacheOf acts = (dedupByUses (acts.filter (fun x => x.isFirstParty))).foldl
      (fun m x => upsert m x.uses firstPartyCheckResult) [] from rfl]
    rw [lookup_foldl_const]
    rw [if_pos (List.any_eq_true.mpr ⟨b0, hb0ded, by simp [hb0uses]⟩)]
  refine ⟨?_, ?_, ?_, ?_, ?_, ?_⟩
  · refine ⟨mkFirstPartyInfo b0, ?_, hb0uses⟩
    rw [hfp]
    exact List.mem_map.mpr ⟨b0, hb0ded, rfl⟩
  · intro e he
    rw [hfp] at he
    obtain ⟨b, _, rfl⟩ := List.mem_map.mp he
    exact ⟨rfl, rfl, rfl, rfl⟩
  · intro e he heq
    rw [hmut] at he
    rcases ((tpLoop_infos_from api 0 _ _).1 e he) with hin | ⟨b, hb, hbe⟩
    · simp at hin
    · exact hTPdednone b hb (heq ▸ hbe.symm)
  · intro e he heq
    rw [himm] at he
    rcases ((tpLoop_infos_from api 0 _ _).2 e he) with hin | ⟨b, hb, hbe⟩
    · simp at hin
    · exact hTPdednone b hb (heq ▸ hbe.symm)
  · intro wf g hg
    obtain ⟨hkeys, hmem⟩ := buildByWorkflow_mem _ _ _ hbw
    obtain ⟨l, hlgs, hgl⟩ := hmem wf g hg
    obtain ⟨hleq, _⟩ := groupByFile_mem acts wf l hlgs
    have hfpflag : ∀ x ∈ dedupByUses l, x.uses = a.uses → x.isFirstParty = true := by
      intro x hx hxu
      have hxl : x ∈ l := dedup_subset _ x hx
      have hxacts : x ∈ acts := by
        rw [hleq] at hxl
        exact (List.mem_filter.mp hxl).1
      obtain ⟨_, _, _, hflag⟩ := wf_coherent hWF hxacts ha hxu
      rw [hflag, hafp]
    obtain ⟨h1, h2, h3⟩ := groupLoop_fp_only _ a.uses hcache _ _ _ hfpflag hgl
    refine ⟨?_, ?_, ?_⟩
    · intro e he heq
      have := h1 e he heq
      simp at this
    · intro e he heq
      have := h2 e he heq
      simp at this
    · intro e he heq
      rcases h3 e he heq with hin | htriple
      · simp at hin
      · exact htriple
  · intro c hc
    rw [hlog] at hc
    rcases tpLoop_log_from api 0 _ _ c hc with hin | ⟨b, hb, hbe⟩
    · simp at hin
    · exact fun heq => hTPdednone b hb (heq ▸ hbe.symm)

end EnsureImmutable

namespace EnsureImmutable

/-- C6 counterexample: for the same specifier occurring in two files,
the `Map`-based deduplication retains the entry of the *last*
occurrence (placed at the first occurrence's position), not the first
occurrence as the claim states. -/
theorem dedup_keeps_last_counterexample :
    dedupByUses [dupOccurrenceA, dupOccurrenceB] = [dupOccurrenceB] ∧
    dupOccurrenceA.uses = dupOccurrenceB.uses ∧
    dupOccurrenceB ≠ dupOccurrenceA :=
  ⟨by decide, by decide, by decide⟩

/-- C6 (amended): the deduplicated entry for a key sits at the key's
first-occurrence position but carries the field values of the key's
last occurrence; since parse-constructed references with equal keys
agree on every field that reaches the flat lists, the flat aggregated
lists are exactly the ones obtained by keeping each key's first
occurrence, in first-occurrence order. -/
theorem flat_lists_as_if_first_kept (api : Collaborator) (acts : List ActionInput)
    (rep : AggregateReport) (log : List ResolveCall)
    (hWF : ∀ x ∈ acts, WellFormedAction x)
    (hrun : checkAllActions api 0 acts = (some rep, log)) :
    rep.mutable = (flatListsKeepFirst api acts).1 ∧
    rep.immutable = (flatListsKeepFirst api acts).2.1 ∧
    rep.firstParty = (flatListsKeepFirst api acts).2.2 := by
  obtain ⟨hbw, hmut, himm, hfp, hlog⟩ := checkAllActions_parts api 0 acts rep log hrun
  have hcongrFP : (dedupByUses (acts.filter (fun x => x.isFirstParty))).map mkFirstPartyInfo
      = (dedupFirstByUses (acts.filter (fun x => x.isFirstParty))).map mkFirstPartyInfo := by
    apply dedup_map_congr
    intro x hx y hy hxy
    obtain ⟨ho, hr, hf, _⟩ := wf_coherent hWF (List.mem_filter.mp hx).1
      (List.mem_filter.mp hy).1 hxy
    simp [mkFirstPartyInfo, hxy, ho, hr, hf]
  have hprojTP : (dedupByUses (acts.filter (fun x => !x.isFirstParty))).map projKey
      = (dedupFirstByUses (acts.filter (fun x => !x.isFirstParty))).map projKey := by
    apply dedup_map_congr
    intro x hx y hy hxy
    obtain ⟨ho, hr, hf, _⟩ := wf_coherent hWF (List.mem_filter.mp hx).1
      (List.mem_filter.mp hy).1 hxy
    simp [projKey, hxy, ho, hr, hf]
  have hkeysFP : (dedupByUses (acts.filter (fun x => x.isFirstParty))).map (fun a => a.uses)
      = (dedupFirstByUses (acts.filter (fun x => x.isFirstParty))).map (fun a => a.uses) :=
    dedup_map_congr _ _ (fun a _ b _ h => h)
  have hcache : fpCacheOf acts
      = (dedupFirstByUses (acts.filter (fun x => x.isFirstParty))).foldl
          (fun m a => upsert m a.uses firstPartyCheckResult) [] :=
    foldl_upsert_const_congr _ _ _ hkeysFP
  have hst : tpStateOf api 0 acts
      = tpLoop api 0 (dedupFirstByUses (acts.filter (fun x => !x.isFirstParty)))
          ⟨(dedupFirstByUses (acts.filter (fun x => x.isFirstParty))).foldl
            (fun m a => upsert m a.uses firstPartyCheckResult) [], [], [], []⟩ := by
    rw [show tpStateOf api 0 acts
        = tpLoop api 0 (dedupByUses (acts.filter (fun x => !x.isFirstParty)))
          ⟨fpCacheOf acts, [], [], []⟩ from rfl, hcache]
    exact tpLoop_congr api 0 _ _ _ hprojTP
  refine ⟨?_, ?_, ?_⟩
  · rw [hmut]
    simp only [flatListsKeepFirst]
    rw [hst]
  · rw [himm]
    simp only [flatListsKeepFirst]
    rw [hst]
  · rw [hfp]
    simp only [flatListsKeepFirst]
    exact hcongrFP

/-- Witness for C6 (amended) on a duplicated third-party specifier. -/
theorem flat_lists_as_if_first_kept_witness :
    (flatListsKeepFirst (fun _ _ _ _ => ApiResult.notFoundError)
      [dupOccurrenceA, dupOccurrenceB]).1
    = [⟨"owner/repo@v1", "owner", "repo", "v1", false, false, false,
        "No release found for this reference"⟩] := by
  have h := (flat_lists_as_if_first_kept (fun _ _ _ _ => ApiResult.notFoundError)
    [dupOccurrenceA, dupOccurrenceB]
    ⟨[⟨"owner/repo@v1", "owner", "repo", "v1", false, false, false,
        "No release found for this reference"⟩], [], [],
      [("a.yml", ⟨[⟨"owner/repo@v1", "owner", "repo", "v1", "a.yml", false, false, false,
        "No release found for this reference"⟩], [], []⟩),
       ("b.yml", ⟨[⟨"owner/repo@v1", "owner", "repo", "v1", "b.yml", false, false, false,
        "No release found for this reference"⟩], [], []⟩)]⟩
    [⟨"owner/repo@v1", "owner", "repo", "v1"⟩]
    (by
      intro a ha
      rcases List.mem_cons.mp ha with rfl | ha
      · exact ⟨by decide, by decide⟩
      · rcases List.mem_singleton.mp ha with rfl
        exact ⟨by decide, by decide⟩)
    (by decide)).1
  exact h.symm

end EnsureImmutable

namespace EnsureImmutable

/-- C1: per specifier, the resolver is invoked at most once; if the
specifier occurs in the input, the flat lists together hold exactly one
entry for it; every input action's file has a per-file group; and each
per-file group holds exactly one entry for the specifier when that file
referenced it, none otherwise. -/
theorem dedup_aggregation (api : Collaborator) (acts : List ActionInput) (s : String)
    (rep : AggregateReport) (log : List ResolveCall)
    (hWF : ∀ x ∈ acts, WellFormedAction x)
    (hrun : checkAllActions api 0 acts = (some rep, log)) :
    log.countP (fun c => c.uses == s) ≤ 1 ∧
    (acts.any (fun a => a.uses == s) = true →
      (rep.mutable ++ rep.immutable ++ rep.firstParty).countP (fun e => e.uses == s) = 1) ∧
    (∀ a ∈ acts, ∃ g, (a.workflowFile, g) ∈ rep.byWorkflow) ∧
    (∀ wf g, (wf, g) ∈ rep.byWorkflow →
      (g.mutable ++ g.immutable ++ g.firstParty).countP (fun e => e.uses == s)
        = if acts.any (fun a => a.workflowFile == wf && a.uses == s) then 1 else 0) := by
  obtain ⟨hbw, hmut, himm, hfp, hlog⟩ := checkAllActions_parts api 0 acts rep log hrun
  have hstdef : tpStateOf api 0 acts
      = tpLoop api 0 (dedupByUses (acts.filter (fun x => !x.isFirstParty)))
        ⟨fpCacheOf acts, [], [], []⟩ := rfl
  refine ⟨?_, ?_, ?_, ?_⟩
  · rw [hlog, hstdef]
    have h1 := tpLoop_log_count api 0 s
      (dedupByUses (acts.filter (fun x => !x.isFirstParty))) ⟨fpCacheOf acts, [], [], []⟩
    have h2 := dedup_countP (acts.filter (fun x => !x.isFirstParty)) s
    simp only [List.countP_nil] at h1
    rw [h2] at h1
    by_cases hany : (acts.filter (fun x => !x.isFirstParty)).any (fun b => b.uses == s)
    · rw [if_pos hany] at h1
      omega
    · rw [if_neg hany] at h1
      omega
  · intro hany
    rw [List.countP_append, List.countP_append, hmut, himm, hfp, hstdef]
    have hTP := tpLoop_count api 0 s
      (dedupByUses (acts.filter (fun x => !x.isFirstParty))) ⟨fpCacheOf acts, [], [], []⟩
    simp only [List.countP_nil] at hTP
    have hTPc := dedup_countP (acts.filter (fun x => !x.isFirstParty)) s
    have hFPmap : ((dedupByUses (acts.filter (fun x => x.isFirstParty))).map
        mkFirstPartyInfo).countP (fun e => e.uses == s)
        = (dedupByUses (acts.filter (fun x => x.isFirstParty))).countP
          (fun a => a.uses == s) :=
      List.countP_map (fun e => e.uses == s) mkFirstPartyInfo _
    have hFPc := dedup_countP (acts.filter (fun x => x.isFirstParty)) s
    obtain ⟨a, ha, has⟩ := List.any_eq_true.mp hany
    have has' : a.uses = s := by simpa using has
    by_cases hflag : a.isFirstParty = true
    · have hFPany : (acts.filter (fun x => x.isFirstParty)).any (fun b => b.uses == s) = true :=
        List.any_eq_true.mpr ⟨a, List.mem_filter.mpr ⟨ha, hflag⟩, has⟩
      have hTPany : (acts.filter (fun x => !x.isFirstParty)).any (fun b => b.uses == s)
          = false := by
        apply List.any_eq_false.mpr
        intro b hb hbs
        obtain ⟨hbacts, hbflag⟩ := List.mem_filter.mp hb
        have hbu : b.uses = a.uses := by
          rw [has']
          simpa using hbs
        obtain ⟨_, _, _, hfl⟩ := wf_coherent hWF hbacts ha hbu
        rw [hfl, hflag] at hbflag
        simp at hbflag
      rw [hTPany] at hTPc
      rw [hFPany] at hFPc
      rw [if_neg Bool.false_ne_true] at hTPc
      rw [if_pos rfl] at hFPc
      rw [hTPc] at hTP
      rw [hFPmap, hFPc]
      omega
    · have hflag' : a.isFirstParty = false := by simpa using hflag
      have hTPany : (acts.filter (fun x => !x.isFirstParty)).any (fun b => b.uses == s) = true :=
        List.any_eq_true.mpr ⟨a, List.mem_filter.mpr ⟨ha, by simp [hflag']⟩, has⟩
      have hFPany : (acts.filter (fun x => x.isFirstParty)).any (fun b => b.uses == s)
          = false := by
        apply List.any_eq_false.mpr
        intro b hb hbs
        obtain ⟨hbacts, hbflag⟩ := List.mem_filter.mp hb
        have hbu : b.uses = a.uses := by
          rw [has']
          simpa using hbs
        obtain ⟨_, _, _, hfl⟩ := wf_coherent hWF hbacts ha hbu
        rw [hfl, hflag'] at hbflag
        cases hbflag
      rw [hTPany] at hTPc
      rw [hFPany] at hFPc
      rw [if_pos rfl] at hTPc
      rw [if_neg Bool.false_ne_true] at hFPc
      rw [hTPc] at hTP
      rw [hFPmap, hFPc]
      omega
  · intro a ha
    obtain ⟨hkeys, _⟩ := buildByWorkflow_mem _ _ _ hbw
    obtain ⟨l, hl⟩ := groupByFile_complete acts a ha
    have hwfmem : a.workflowFile ∈ rep.byWorkflow.map Prod.fst := by
      rw [hkeys]
      exact List.mem_map.mpr ⟨(a.workflowFile, l), hl, rfl⟩
    obtain ⟨p, hp, hpf⟩ := List.mem_map.mp hwfmem
    refine ⟨p.2, ?_⟩
    rw [show (a.workflowFile, p.2) = p from by rw [← hpf]]
    exact hp
  · intro wf g hg
    obtain ⟨_, hmem⟩ := buildByWorkflow_mem _ _ _ hbw
    obtain ⟨l, hlgs, hgl⟩ := hmem wf g hg
    obtain ⟨hleq, _⟩ := groupByFile_mem acts wf l hlgs
    have hcount := groupLoop_count _ s _ _ _ hgl
    simp only [List.countP_nil] at hcount
    have hdc := dedup_countP l s
    rw [List.countP_append, List.countP_append]
    rw [hdc] at hcount
    rw [hleq] at hcount
    have hbeta : (acts.filter (fun a => a.workflowFile == wf)).any (fun a => a.uses == s)
        = acts.any (fun a => a.workflowFile == wf && a.uses == s) :=
      any_filter_eq _ _ _
    rw [hbeta] at hcount
    omega
end EnsureImmutable

namespace EnsureImmutable

/-- Witness for C7: a first-party reference lands in the firstParty
list with the canonical triple, and no resolver call is recorded. -/
theorem first_party_invariant_witness :
    (∃ e ∈ (AggregateReport.mk [] []
        [⟨"actions/checkout@v4", "actions", "checkout", "v4", true, true, false,
          "First-party action"⟩]
        [("ci.yml", ⟨[], [],
          [⟨"actions/checkout@v4", "actions", "checkout", "v4", "ci.yml", true, true, false,
            "First-party action"⟩]⟩)]).firstParty, e.uses = fpOccurrence.uses) ∧
    (∀ c ∈ ([] : List ResolveCall), c.uses ≠ fpOccurrence.uses) := by
  have h := first_party_invariant (fun _ _ _ _ => ApiResult.notFoundError)
    [fpOccurrence] fpOccurrence
    (AggregateReport.mk [] []
      [⟨"actions/checkout@v4", "actions", "checkout", "v4", true, true, false,
        "First-party action"⟩]
      [("ci.yml", ⟨[], [],
        [⟨"actions/checkout@v4", "actions", "checkout", "v4", "ci.yml", true, true, false,
          "First-party action"⟩]⟩)])
    []
    (by
      intro a ha
      rcases List.mem_singleton.mp ha with rfl
      exact ⟨by decide, by decide⟩)
    (List.mem_singleton.mpr rfl)
    (by decide)
    (by decide)
  exact ⟨h.1, h.2.2.2.2.2⟩

/-- Witness for C1 on two occurrences of one specifier across two
files: one resolver call, one flat entry. -/
theorem dedup_aggregation_witness :
    ([(⟨"owner/repo@v1", "owner", "repo", "v1"⟩ : ResolveCall)]).countP
      (fun c => c.uses == "owner/repo@v1") ≤ 1 ∧
    ((AggregateReport.mk
        [⟨"owner/repo@v1", "owner", "repo", "v1", false, false, false,
          "No release found for this reference"⟩] [] []
        [("a.yml", ⟨[⟨"owner/repo@v1", "owner", "repo", "v1", "a.yml", false, false, false,
            "No release found for this reference"⟩], [], []⟩),
         ("b.yml", ⟨[⟨"owner/repo@v1", "owner", "repo", "v1", "b.yml", false, false, false,
            "No release found for this reference"⟩], [], []⟩)]).mutable
      ++ (AggregateReport.mk
        [⟨"owner/repo@v1", "owner", "repo", "v1", false, false, false,
          "No release found for this reference"⟩] [] []
        [("a.yml", ⟨[⟨"owner/repo@v1", "owner", "repo", "v1", "a.yml", false, false, false,
            "No release found for this reference"⟩], [], []⟩),
         ("b.yml", ⟨[⟨"owner/repo@v1", "owner", "repo", "v1", "b.yml", false, false, false,
            "No release found for this reference"⟩], [], []⟩)]).immutable
      ++ (AggregateReport.mk
        [⟨"owner/repo@v1", "owner", "repo", "v1", false, false, false,
          "No release found for this reference"⟩] [] []
        [("a.yml", ⟨[⟨"owner/repo@v1", "owner", "repo", "v1", "a.yml", false, false, false,
            "No release found for this reference"⟩], [], []⟩),
         ("b.yml", ⟨[⟨"owner/repo@v1", "owner", "repo", "v1", "b.yml", false, false, false,
            "No release found for this reference"⟩], [], []⟩)]).firstParty).countP
      (fun e => e.uses == "owner/repo@v1") = 1 := by
  have h := dedup_aggregation (fun _ _ _ _ => ApiResult.notFoundError)
    [dupOccurrenceA, dupOccurrenceB] "owner/repo@v1"
    (AggregateReport.mk
      [⟨"owner/repo@v1", "owner", "repo", "v1", false, false, false,
        "No release found for this reference"⟩] [] []
      [("a.yml", ⟨[⟨"owner/repo@v1", "owner", "repo", "v1", "a.yml", false, false, false,
          "No release found for this reference"⟩], [], []⟩),
       ("b.yml", ⟨[⟨"owner/repo@v1", "owner", "repo", "v1", "b.yml", false, false, false,
          "No release found for this reference"⟩], [], []⟩)])
    [⟨"owner/repo@v1", "owner", "repo", "v1"⟩]
    (by
      intro a ha
      rcases List.mem_cons.mp ha with rfl | ha
      · exact ⟨by decide, by decide⟩
      · rcases List.mem_singleton.mp ha with rfl
        exact ⟨by decide, by decide⟩)
    (by decide)
  exact ⟨h.1, h.2.1 (by decide)⟩

end EnsureImmutable
